import Mathlib

/-!
Verification of the SDEverywhere model analyzer (`src/Model.js`,
`src/sde-generate.js`) against its natural-language specification.

The JavaScript source is shallowly embedded: the module-level `variables`
array becomes an explicit `List Variable` threaded through each function,
and the subscript registry (`Subscript.js`, which is outside the analyzed
sources) becomes an abstract environment `SubEnv` of lookup functions.
Fallible or possibly non-terminating loops are given explicit fuel and
return `Option`.
-/

/-- A variable record, as populated by the variable and equation readers.
Mirrors the fields of `Variable.js` that `Model.js` reads:
`varName`, `subscripts`, `refId`, `varType`, `hasInitValue`,
`references`, `initReferences`.  (`hasSubscripts()` in the source is
`subscripts ≠ []`.) -/
structure Variable where
  varName : String
  subscripts : List String
  refId : String
  varType : String
  hasInitValue : Bool
  references : List String
  initReferences : List String
deriving DecidableEq, Repr, Inhabited

/-- The subscript registry environment: the lookups Model.js performs via
`Subscript.js` (`isIndex`, `isDimension`, `sub(name).value`, and the family
of a subscript used by `normalizeSubscripts`). -/
structure SubEnv where
  isIndex : String → Bool
  isDimension : String → Bool
  dimValue : String → List String
  family : String → String

/-- Lexicographic less-or-equal on character lists by code point, the
order JavaScript uses to compare strings (identical to UTF-16 order on
the ASCII canonical names the model produces). -/
def charListLe : List Char → List Char → Bool
  | [], _ => true
  | _ :: _, [] => false
  | a :: as, b :: bs =>
    if a.toNat < b.toNat then true
    else if b.toNat < a.toNat then false
    else charListLe as bs

/-- JavaScript string `<=`. -/
def strLE (a b : String) : Bool :=
  charListLe a.toList b.toList

/-- JavaScript string `<` (and `b > a`). -/
def strLT (a b : String) : Bool :=
  !(strLE b a)

/-- `R.filter(R.propEq('varName', varName), variables)` — all records with
the given canonical name (`varsWithName` in Model.js). -/
def varsWithName (tbl : List Variable) (varName : String) : List Variable :=
  tbl.filter (fun v => v.varName == varName)

/-- Keep-first-occurrence deduplication, the behavior of Ramda's `R.uniq`. -/
def uniqFirst {α : Type} [DecidableEq α] : List α → List α
  | [] => []
  | a :: t => a :: (uniqFirst t).filter (fun x => x ≠ a)

/-- `varNames()` in Model.js: `R.uniq(R.map(v => v.varName, variables)).sort()`. -/
def varNames (tbl : List Variable) : List String :=
  List.insertionSort (fun a b => strLE a b = true) (uniqFirst (tbl.map (·.varName)))

/-- `areSubsEqual(vars, i)` in Model.js: true when every record in `vars`
has the same subscript at position `i` as the first record (JS compares
`v.subscripts[i] !== subscript`, where an out-of-range access is
`undefined`; `List.get?` models that). -/
def areSubsEqual (vars : List Variable) (i : Nat) : Bool :=
  match vars with
  | [] => true
  | v0 :: _ => vars.all (fun v => v.subscripts.get? i == v0.subscripts.get? i)

/-- `findNonAtoAVars()` in Model.js: for each var name with more than one
record, record the name together with its per-position expansion flags
(true where the records disagree on the subscript). -/
def findNonAtoAVars (tbl : List Variable) : List (String × List Bool) :=
  (varNames tbl).filterMap (fun name =>
    let vars := varsWithName tbl name
    if vars.length > 1 then
      let numDims := (vars.headD default).subscripts.length
      some (name, (List.range numDims).map (fun i => !(areSubsEqual vars i)))
    else none)

/-- `isNonAtoAName(varName)` in Model.js: membership in the
`nonAtoANames` table built by `findNonAtoAVars`. -/
def isNonAtoAName (tbl : List Variable) (varName : String) : Bool :=
  (findNonAtoAVars tbl).any (fun p => p.1 == varName)

/-- `refIdForVar(v)` in Model.js: the refId is the var name; subscripts are
appended in brackets only for subscripted non-apply-to-all vars. -/
def refIdForVar (tbl : List Variable) (v : Variable) : String :=
  if v.subscripts ≠ [] ∧ isNonAtoAName tbl v.varName then
    v.varName ++ "[" ++ String.intercalate "," v.subscripts ++ "]"
  else
    v.varName

/-- `setRefIds()` in Model.js: assign `refIdForVar` to every record. -/
def setRefIds (tbl : List Variable) : List Variable :=
  tbl.map (fun v => { v with refId := refIdForVar tbl v })

/-- Modelled from the spec: `normalizeSubscripts` (defined in
`Subscript.js`, outside the analyzed sources) "sorts a subscript list by
family in ascending order"; a stable sort is used so that normalizing an
already-normalized list is the identity. -/
def normalizeSubscripts (env : SubEnv) (subs : List String) : List String :=
  List.insertionSort (fun a b => strLE (env.family a) (env.family b) = true) subs

def envTrivial : SubEnv :=
  { isIndex := fun _ => false, isDimension := fun _ => false,
    dimValue := fun _ => [], family := fun s => s }

def tblC1 : List Variable :=
  [{ varName := "_a", subscripts := ["_r1"], refId := "", varType := "aux",
     hasInitValue := false, references := [], initReferences := [] },
   { varName := "_a", subscripts := ["_r2"], refId := "", varType := "aux",
     hasInitValue := false, references := [], initReferences := [] },
   { varName := "_b", subscripts := ["_r1"], refId := "", varType := "aux",
     hasInitValue := false, references := [], initReferences := [] }]

def wC1 : Variable :=
  { varName := "_a", subscripts := ["_r1"], refId := "_a[_r1]", varType := "aux",
    hasInitValue := false, references := [], initReferences := [] }

/-- JavaScript regex `\w`: ASCII letters, digits, and underscore. -/
def isWordChar (c : Char) : Bool :=
  (65 ≤ c.toNat && c.toNat ≤ 90) || (97 ≤ c.toNat && c.toNat ≤ 122) ||
    (48 ≤ c.toNat && c.toNat ≤ 57) || c.toNat == 95

/-- A token produced by scanning a refId with the regex `/\w+|\[/g` in
`splitRefId`: either a maximal run of word characters or a literal `[`.
All other characters are skipped by the scan. -/
inductive RefTok where
  | word : List Char → RefTok
  | lbrack : RefTok
deriving DecidableEq, Repr

/-- The token stream of `/\w+|\[/g` over a character list: maximal word
runs, `[` markers, everything else dropped.  A word character either
extends the word run that starts at the very next character or begins a
run of its own; the `isWordChar d` test on the next character decides
which, so runs are exactly the maximal word-character runs the regex
produces. -/
def pushWord (c : Char) (cs : List Char) (ts : List RefTok) : List RefTok :=
  match cs, ts with
  | d :: _, RefTok.word w :: ts2 =>
    if isWordChar d then RefTok.word (c :: w) :: ts2 else RefTok.word [c] :: ts
  | _, _ => RefTok.word [c] :: ts

def refTokens : List Char → List RefTok
  | [] => []
  | c :: cs =>
    if isWordChar c then pushWord c cs (refTokens cs)
    else if c = '[' then
      RefTok.lbrack :: refTokens cs
    else
      refTokens cs

/-- The accumulation loop of `splitRefId` in Model.js: before the first
`[` token each word run overwrites `varName`; after it, word runs are
collected as subscripts. -/
def splitRefIdAux : List RefTok → Bool → List Char → List (List Char) →
    List Char × List (List Char)
  | [], _, vn, subs => (vn, subs)
  | .lbrack :: ts, _, vn, subs => splitRefIdAux ts true vn subs
  | .word w :: ts, inSubs, vn, subs =>
    if inSubs then splitRefIdAux ts inSubs vn (subs ++ [w])
    else splitRefIdAux ts inSubs w subs

/-- `splitRefId(refId)` in Model.js: split a refId into its var name and
its subscripts, then put the subscripts in normal order. -/
def splitRefId (env : SubEnv) (refId : String) : String × List String :=
  let parts := splitRefIdAux (refTokens refId.toList) false [] []
  (String.mk parts.1, normalizeSubscripts env (parts.2.map String.mk))

/-- The position-by-position subscript comparison loop of `varWithRefId`
in Model.js, comparing the subscripts split from a candidate var's refId
against the subscripts split from the requested refId.  A position where
the reference list is exhausted behaves like the JS `undefined` access:
no predicate matches and the comparison fails. -/
def subsMatch (env : SubEnv) : List String → List String → Bool
  | [], _ => true
  | s :: ss, refs =>
    match refs with
    | [] => false
    | r :: rs =>
      if (env.isIndex s && env.isIndex r) || (env.isDimension s && env.isDimension r) then
        s == r && subsMatch env ss rs
      else if env.isDimension s && env.isIndex r then
        (env.dimValue s).contains r && subsMatch env ss rs
      else
        false

/-- `varWithRefId(refId)` in Model.js: resolve a refId to a record,
first by direct refId equality, then by scanning the records sharing the
refId's var name for one whose subscripts subsume the reference's. -/
def varWithRefId (env : SubEnv) (tbl : List Variable) (refId : String) : Option Variable :=
  match tbl.find? (fun v => v.refId == refId) with
  | some v => some v
  | none =>
    match ((varsWithName tbl (splitRefId env refId).1).map (·.refId)).find?
        (fun vr => subsMatch env (splitRefId env vr).2 (splitRefId env refId).2) with
    | some vr => tbl.find? (fun v => v.refId == vr)
    | none => none

/-- The binding relation of claim C4, exactly the two ways `varWithRefId`
accepts a record for a refId: direct refId equality, or same var name with
the candidate's normal-order subscripts subsuming the reference's
position by position (`subsMatch`). -/
def BindsTo (env : SubEnv) (tbl : List Variable) (refId : String) (v : Variable) : Prop :=
  v ∈ tbl ∧
    (v.refId = refId ∨
      (v.varName = (splitRefId env refId).1 ∧
        subsMatch env (splitRefId env v.refId).2 (splitRefId env refId).2 = true))

/-- `refIsConst(refId)` inside `removeConstRefs` in Model.js: the refId
resolves to a var typed `const`, `data`, or `lookup` (an unresolvable
refId is not considered const, matching the JS `v && (...)` guard). -/
def refIsConst (env : SubEnv) (tbl : List Variable) (refId : String) : Bool :=
  match varWithRefId env tbl refId with
  | some v => v.varType == "const" || v.varType == "data" || v.varType == "lookup"
  | none => false

/-- The per-record update of `removeConstRefs`: drop the references whose
target is `const`, `data`, or `lookup`. -/
def pruneVar (env : SubEnv) (tbl : List Variable) (v : Variable) : Variable :=
  { v with
    references := v.references.filter (fun r => !(refIsConst env tbl r)),
    initReferences := v.initReferences.filter (fun r => !(refIsConst env tbl r)) }

/-- `removeConstRefs()` in Model.js: drop every reference whose target is
a `const`, `data`, or `lookup` var.  (The JS mutates records in place
while scanning the same table; resolution only reads fields that the pass
never changes, so filtering against the input table is equivalent.) -/
def removeConstRefs (env : SubEnv) (tbl : List Variable) : List Variable :=
  tbl.map (pruneVar env tbl)

/-- A registry with one dimension `_dima` containing indices `_i1`, `_i2`,
used by concrete instances below. -/
def envDimA : SubEnv :=
  { isIndex := fun s => s == "_i1" || s == "_i2",
    isDimension := fun s => s == "_dima",
    dimValue := fun s => if s == "_dima" then ["_i1", "_i2"] else [],
    family := fun s => s }

def tblC4 : List Variable :=
  [{ varName := "_a", subscripts := ["_dima"], refId := "_a", varType := "aux",
     hasInitValue := false, references := [], initReferences := [] },
   { varName := "_b", subscripts := [], refId := "_b", varType := "const",
     hasInitValue := false, references := [], initReferences := [] }]

def tblC8 : List Variable :=
  [{ varName := "_x", subscripts := [], refId := "_x", varType := "aux",
     hasInitValue := false, references := ["_c", "_y"], initReferences := ["_c"] },
   { varName := "_y", subscripts := [], refId := "_y", varType := "aux",
     hasInitValue := false, references := [], initReferences := [] },
   { varName := "_c", subscripts := [], refId := "_c", varType := "const",
     hasInitValue := false, references := [], initReferences := [] }]

instance (env : SubEnv) (tbl : List Variable) (r : String) (v : Variable) :
    Decidable (BindsTo env tbl r v) := by
  unfold BindsTo
  infer_instance

/-- An occurrence of `x` appears strictly before an occurrence of `y` in
the list. -/
inductive Before {α : Type} (x y : α) : List α → Prop
  | head {l : List α} : y ∈ l → Before x y (x :: l)
  | tail {c : α} {l : List α} : Before x y l → Before x y (c :: l)

/-- The nodes of the remaining subgraph with no incoming edge from a
remaining node. -/
def kahnSources (g : List (String × String)) (ns : List String) : List String :=
  ns.filter (fun n => !(g.any (fun e => ns.contains e.1 && e.2 == n)))

/-- Modelled from the spec: one topological sort (Kahn's algorithm) over
an edge list, as performed by `toposort.js` (outside the analyzed
sources); the spec requires only that the result is a topological
ordering — for every edge `(a, b)`, `a` comes before `b` — and that a
cycle is an error. -/
def kahn (g : List (String × String)) : Nat → List String → Option (List String)
  | 0, ns => if ns.isEmpty then some [] else none
  | fuel + 1, ns =>
    if ns.isEmpty then some []
    else
      let srcs := kahnSources g ns
      if srcs.isEmpty then none
      else
        match kahn g fuel (ns.filter (fun n => !(srcs.contains n))) with
        | some out => some (srcs ++ out)
        | none => none

/-- The node set of an edge list, first occurrences first. -/
def nodesOf (g : List (String × String)) : List String :=
  uniqFirst (g.map (·.1) ++ g.map (·.2))

/-- Modelled from the spec: `toposort(graph)` from `toposort.js`. -/
def modelToposort (g : List (String × String)) : Option (List String) :=
  kahn g (nodesOf g).length (nodesOf g)

/-- `varsOfType(varType, vars)` in Model.js: the records of the given
type, excluding the `_time` placeholder. -/
def varsOfType (t : String) (vars : List Variable) : List Variable :=
  vars.filter (fun v => v.varType == t && v.varName != "_time")

/-- Modelled from the spec: `vsort` from `Helpers.js` (outside the
analyzed sources) sorts a var list by refId ascending ("prepended
(stable, sorted by refId)"). -/
def vsort (vars : List Variable) : List Variable :=
  List.insertionSort (fun a b => strLE a.refId b.refId = true) vars

/-- `refs(v)` inside `sortVarsOfType` in Model.js: resolve v's references,
keep the distinct ones of the requested type, and emit one dependency
pair per reference, inverting the pair when both ends are levels.
(Unresolvable references would crash the JS `R.propEq` filter; `filterMap`
drops them, and the theorems below assume resolvability.) -/
def refsEdges (env : SubEnv) (tbl : List Variable) (t : String) (v : Variable) :
    List (String × String) :=
  (uniqFirst ((v.references.filterMap (varWithRefId env tbl)).filter
      (fun r => r.varType == t))).map
    (fun r =>
      if v.varType == "level" && r.varType == "level" then (r.refId, v.refId)
      else (v.refId, r.refId))

/-- The step-time dependency graph for a var type: `R.unnest(R.map(refs,
vars))` in `sortVarsOfType`. -/
def graphOfType (env : SubEnv) (tbl : List Variable) (t : String) :
    List (String × String) :=
  (varsOfType t tbl).flatMap (refsEdges env tbl t)

/-- `sortVarsOfType(varType)` in Model.js: topologically sort the
dependency graph, reverse it, turn refIds back into vars of the type, and
prepend the vars of the type with no dependencies sorted by refId.
`none` models `process.exit(1)` on a `toposort` cycle error. -/
def sortVarsOfType (env : SubEnv) (tbl : List Variable) (t : String) :
    Option (List Variable) :=
  match modelToposort (graphOfType env tbl t) with
  | none => none
  | some order =>
    let sortedVars := varsOfType t (order.reverse.filterMap (varWithRefId env tbl))
    let nodepVars := vsort ((varsOfType t tbl).filter (fun v => !(sortedVars.contains v)))
    some (nodepVars ++ sortedVars)

def xC2 : Variable :=
  { varName := "_x", subscripts := [], refId := "_x", varType := "aux",
    hasInitValue := false, references := [], initReferences := [] }

def yC2 : Variable :=
  { varName := "_y", subscripts := [], refId := "_y", varType := "aux",
    hasInitValue := false, references := ["_x"], initReferences := [] }

def tblC2 : List Variable := [xC2, yC2]

/-- The reference list `sortInitVars` walks for a record: `initReferences`
for records with an init value, `references` otherwise. -/
def refIdsOf (v : Variable) : List String :=
  if v.hasInitValue then v.initReferences else v.references

/-- JavaScript `Map.prototype.set` on an insertion-ordered association
list: replace in place when the key exists, append otherwise. -/
def mapSet (m : List (String × List String)) (k : String) (xs : List String) :
    List (String × List String) :=
  if m.any (fun p => p.1 == k) then
    m.map (fun p => if p.1 == k then (k, xs) else p)
  else m ++ [(k, xs)]

/-- JavaScript `Map.prototype.get` (as an `Option`). -/
def mapGet (m : List (String × List String)) (k : String) : Option (List String) :=
  (m.find? (fun p => p.1 == k)).map (·.2)

/-- The push step inside `addDepsToMap` in Model.js: skip references that
already have a deps entry, otherwise resolve and push the target unless it
is a `const` or already queued.  The queue is a stack with its top at the
head (JS `push`/`pop` act on the array's end). -/
def pushRef (env : SubEnv) (tbl : List Variable) (m2 : List (String × List String))
    (q2 : List Variable) (refId : String) : List Variable :=
  if (mapGet m2 refId).isSome then q2
  else
    match varWithRefId env tbl refId with
    | some refVar =>
      if refVar.varType != "const" && !(q2.contains refVar) then refVar :: q2 else q2
    | none => q2

/-- `addDepsToMap(v)` in Model.js: record v's (init) references in the
deps map and queue the unvisited, non-const targets. -/
def addDepsToMap (env : SubEnv) (tbl : List Variable) (v : Variable)
    (q : List Variable) (m : List (String × List String)) :
    List Variable × List (String × List String) :=
  if (refIdsOf v).isEmpty then (q, m)
  else
    ((refIdsOf v).foldl (pushRef env tbl (mapSet m v.refId (refIdsOf v))) q,
      mapSet m v.refId (refIdsOf v))

/-- The worklist loop of `sortInitVars` in Model.js (`while (vars.length >
0) ... addDepsToMap(vars.pop())`), with explicit fuel: the JS loop is not
structurally bounded (a reference string that never matches a deps-map key
can re-queue its target), so the embedding returns `none` when the fuel
runs out before the queue empties. -/
def initLoop (env : SubEnv) (tbl : List Variable) :
    Nat → List Variable → List (String × List String) →
    Option (List (String × List String))
  | 0, q, m => if q.isEmpty then some m else none
  | _ + 1, [], m => some m
  | fuel + 1, v :: q, m =>
    initLoop env tbl fuel (addDepsToMap env tbl v q m).1 (addDepsToMap env tbl v q m).2

/-- The init dependency graph: one `[refId, dep]` pair per deps-map entry
value, in map insertion order. -/
def initGraph (m : List (String × List String)) : List (String × String) :=
  m.flatMap (fun p => p.2.map (fun dep => (p.1, dep)))

/-- `sortInitVars()` in Model.js: seed the queue with every record that
has an init value (the JS pops from the array's end, so the head of the
embedded stack is the last seed), run the worklist to build the deps map,
topologically sort its edge pairs, reverse, map refIds back to records,
reject `const` and `lookup` records, and prepend the seeds not already
present, sorted by refId. -/
def sortInitVars (env : SubEnv) (tbl : List Variable) (fuel : Nat) :
    Option (List Variable) :=
  match initLoop env tbl fuel (tbl.filter (fun v => v.hasInitValue)).reverse [] with
  | none => none
  | some depsMap =>
    match modelToposort (initGraph depsMap) with
    | none => none
    | some order =>
      let sortedVars := (order.reverse.filterMap (varWithRefId env tbl)).filter
        (fun v => !(v.varType == "const" || v.varType == "lookup"))
      some (vsort ((tbl.filter (fun v => v.hasInitValue)).filter
        (fun v => !(sortedVars.contains v))) ++ sortedVars)

/-- The init-time reachability relation of claim C3: the transitive
closure of the seed records (those with an init value), following each
record's `initReferences` when it has an init value and its `references`
otherwise, through `varWithRefId` resolution. -/
inductive InitReach (env : SubEnv) (tbl : List Variable) : Variable → Prop
  | seed {v : Variable} : v ∈ tbl → v.hasInitValue = true → InitReach env tbl v
  | step {v w : Variable} {r : String} : InitReach env tbl v → r ∈ refIdsOf v →
      varWithRefId env tbl r = some w → InitReach env tbl w

def vStockC3 : Variable :=
  { varName := "_stock", subscripts := [], refId := "_stock", varType := "level",
    hasInitValue := true, references := ["_flow"], initReferences := ["_init"] }

def vInitC3 : Variable :=
  { varName := "_init", subscripts := [], refId := "_init", varType := "aux",
    hasInitValue := false, references := [], initReferences := [] }

def vFlowC3 : Variable :=
  { varName := "_flow", subscripts := [], refId := "_flow", varType := "aux",
    hasInitValue := false, references := [], initReferences := [] }

def tblC3 : List Variable := [vStockC3, vInitC3, vFlowC3]

/-- A dimension record of the subscript registry, as `readSubscriptRanges`
in Model.js manipulates it: name, value (subscript names), size, family,
and the mapping table. -/
structure DimRec where
  name : String
  value : List String
  size : Nat
  family : String
  mappings : List (String × List String)
deriving DecidableEq, Repr, Inhabited

/-- `sub(name)` restricted to dimensions: look a dimension up by name. -/
def lookupDim (reg : List DimRec) (name : String) : Option DimRec :=
  reg.find? (fun d => d.name == name)

/-- `isDimension(name)` against a dimension registry. -/
def isDimName (reg : List DimRec) (s : String) : Bool :=
  (lookupDim reg s).isSome

/-- `dimComparator` in Model.js as a relation: `dim1` sorts no later than
`dim2` when its size is smaller, or sizes are equal and its name is
JavaScript-greater-or-equal (sort by size ascending, name descending). -/
def dimLE (d1 d2 : DimRec) : Prop :=
  d1.size < d2.size ∨ (d1.size = d2.size ∧ strLE d2.name d1.name = true)

instance (d1 d2 : DimRec) : Decidable (dimLE d1 d2) := by
  unfold dimLE
  infer_instance

/-- The family-resolution step of `readSubscriptRanges` in Model.js for
one dimension: a spec `dimensionFamilies` entry wins; otherwise sort the
dimensions whose value contains this dimension's first index with
`dimComparator` and take the last one; with no candidates (empty value)
the family is left unchanged (the JS logs an error). -/
def resolveFamily (allDims : List DimRec) (dimensionFamilies : List (String × String))
    (dim : DimRec) : DimRec :=
  match (dimensionFamilies.find? (fun p => p.1 == dim.name)).map (·.2) with
  | some fam => { dim with family := fam }
  | none =>
    match dim.value with
    | [] => dim
    | index :: _ =>
      match (List.insertionSort dimLE
          (allDims.filter (fun d => d.value.contains index))).getLast? with
      | some d => { dim with family := d.name }
      | none => dim

/-- The family loop of `readSubscriptRanges`: resolve every dimension's
family.  (The JS mutates `dim.family` in place, but resolution reads only
names, values and sizes, which the loop never changes, so an independent
map is equivalent.) -/
def readFamilies (allDims : List DimRec) (dimensionFamilies : List (String × String)) :
    List DimRec :=
  allDims.map (resolveFamily allDims dimensionFamilies)

/-- The spec sentence of claim C5 as written: "the dimension of greatest
size among those containing D's first index, ties broken by descending
name" — i.e. among the greatest-size candidates the JavaScript-greatest
name wins.  Defined for comparison with `resolveFamily`. -/
def familySpecClaim (allDims : List DimRec) (dim : DimRec) : Option String :=
  match dim.value with
  | [] => none
  | index :: _ =>
    ((List.insertionSort
        (fun d1 d2 : DimRec => d1.size < d2.size ∨
          (d1.size = d2.size ∧ strLE d1.name d2.name = true))
        (allDims.filter (fun d => d.value.contains index))).getLast?).map (·.name)

def dimA5 : DimRec := { name := "a", value := ["i"], size := 1, family := "a", mappings := [] }

def dimB5 : DimRec := { name := "b", value := ["i"], size := 1, family := "b", mappings := [] }

/-- One substitution step of the dimension-expansion pass in
`readSubscriptRanges`: `R.flatten(R.map(s => isDimension(s) ?
sub(s).value : s, dim.value))` against the current registry. -/
def expandValue (reg : List DimRec) (value : List String) : List String :=
  value.flatMap (fun s =>
    match lookupDim reg s with
    | some d => d.value
    | none => [s])

/-- In-place mutation of one dimension's value and size, as the JS
`dim.value = value; dim.size = value.length` does. -/
def updateDim (reg : List DimRec) (n : String) (newVal : List String) : List DimRec :=
  reg.map (fun d =>
    if d.name == n then { d with value := newVal, size := newVal.length } else d)

/-- One `for (let dim of allDims)` pass of the expansion loop, threading
the mutated registry and the `dimFoundInValue` flag. -/
def onePass : List String → List DimRec → Bool → List DimRec × Bool
  | [], reg, ch => (reg, ch)
  | n :: ns, reg, ch =>
    match lookupDim reg n with
    | none => onePass ns reg ch
    | some d =>
      if expandValue reg d.value = d.value then onePass ns reg ch
      else onePass ns (updateDim reg n (expandValue reg d.value)) true

/-- The `do ... while (dimFoundInValue)` expansion loop of
`readSubscriptRanges`, with explicit fuel: the JS loop has no bound and
need not terminate on cyclic input, so the embedding returns `none` when
the fuel runs out before a pass makes no change. -/
def expandLoop : Nat → List DimRec → Option (List DimRec)
  | 0, _ => none
  | fuel + 1, reg =>
    if (onePass (reg.map (·.name)) reg false).2 then
      expandLoop fuel (onePass (reg.map (·.name)) reg false).1
    else some (onePass (reg.map (·.name)) reg false).1

/-- The termination potential of one dimension value: each dimension name
of rank `r` in it weighs `(L+1)^r`. -/
def phiVal (isDim : String → Bool) (L : Nat) (rk : String → Nat)
    (value : List String) : Nat :=
  (value.map (fun s => if isDim s then (L + 1) ^ (rk s) else 0)).sum

/-- The termination potential of a registry. -/
def phiReg (isDim : String → Bool) (L : Nat) (rk : String → Nat)
    (reg : List DimRec) : Nat :=
  (reg.map (fun d => phiVal isDim L rk d.value)).sum

def regC6 : List DimRec :=
  [{ name := "a", value := ["b"], size := 1, family := "a", mappings := [] },
   { name := "b", value := ["a"], size := 1, family := "b", mappings := [] }]

def regC6out : List DimRec :=
  [{ name := "a", value := ["a"], size := 1, family := "a", mappings := [] },
   { name := "b", value := ["a"], size := 1, family := "b", mappings := [] }]

/-- An acyclic concrete registry: dimension `a` is declared in terms of
dimension `b`, whose value holds only indices. -/
def regW6 : List DimRec :=
  [{ name := "a", value := ["b"], size := 1, family := "a", mappings := [] },
   { name := "b", value := ["i", "j"], size := 2, family := "b", mappings := [] }]

/-- A rank function witnessing that `regW6`'s dimension-name graph is
acyclic. -/
def rkW6 : String → Nat := fun s => if s = "a" then 1 else 0

/-- The abnormal terminations the mapping-inversion loop of
`readSubscriptRanges` can reach.  `typeErrorUndefinedSub`: the map-to
name is neither a dimension nor a declared index, so `sub(toSubName)`
is `undefined` and `toSub.name` (or `toSub.value`) throws a TypeError.
`referenceErrorToSubName`: `setMappingValue`'s invalid-index branch
evaluates a template that names `toSubName`, but `toSubName` is declared
with `let` inside the later `for` block and is not in scope in the arrow
function, so the `console.error` line itself throws a ReferenceError —
the diagnostic never prints.  Both crash the inversion; neither is a
`MappingError`. -/
inductive InvErr where
  | typeErrorUndefinedSub (toSubName : String)
  | referenceErrorToSubName
deriving DecidableEq, Repr

/-- `setMappingValue(toIndNumber, fromIndName)` in `readSubscriptRanges`:
a call is `(toIndNumber?, fromIndName)`, where `toIndNumber?` is `none`
when `indexOf` returned `-1`.  A valid in-range index number stores the
map-from index at that position of the inverted mapping value; otherwise
the branch throws (see `InvErr.referenceErrorToSubName`).  The JS sparse
array is embedded as a `List (Option String)` of length `toDim.size`
with `none` at unassigned positions (reading a hole or an out-of-range
position of the sparse array gives `undefined` either way). -/
def setMV (size : Nat) (st : List (Option String)) (c : Option Nat × String) :
    Except InvErr (List (Option String)) :=
  match c.1 with
  | some i =>
    if i < size then Except.ok (st.set i (some c.2))
    else Except.error InvErr.referenceErrorToSubName
  | none => Except.error InvErr.referenceErrorToSubName

/-- A run of consecutive `setMappingValue` calls, stopping at the first
thrown exception. -/
def runCalls (size : Nat) : List (Option Nat × String) → List (Option String) →
    Except InvErr (List (Option String))
  | [], st => Except.ok st
  | c :: cs, st =>
    match setMV size st c with
    | Except.ok st2 => runCalls size cs st2
    | Except.error e => Except.error e

/-- The `for i` loop of the mapping inversion in `readSubscriptRanges`,
over the entries `(fromDim.value[i], mappingValue[i])`: when the map-to
name is a dimension, one `setMappingValue` call per index of its value
with `toDim.value.indexOf(toIndName)`; when it is a declared index
(`inds` is the set of declared index names), a single call with
`toDim.value.indexOf(toSub.name)` where `toSub.name` is the name itself;
when it is neither, `sub(toSubName)` is `undefined` and dereferencing it
throws a TypeError. -/
def invertEntries (reg : List DimRec) (inds : List String) (toDim : DimRec) :
    List (String × String) → List (Option String) → Except InvErr (List (Option String))
  | [], st => Except.ok st
  | p :: ps, st =>
    match lookupDim reg p.2 with
    | some toSub =>
      match runCalls toDim.size
          (toSub.value.map (fun t => (toDim.value.findIdx? (fun x => x == t), p.1))) st with
      | Except.ok st2 => invertEntries reg inds toDim ps st2
      | Except.error e => Except.error e
    | none =>
      if inds.contains p.2 then
        match runCalls toDim.size [(toDim.value.findIdx? (fun x => x == p.2), p.1)] st with
        | Except.ok st2 => invertEntries reg inds toDim ps st2
        | Except.error e => Except.error e
      else Except.error (InvErr.typeErrorUndefinedSub p.2)

/-- The mapping-inversion body of `readSubscriptRanges` for one
`(fromDim, toDim)` pair: an empty declared mapping value stores
`fromDim.value` itself; otherwise the entries are processed in source
order over the initially empty sparse array, the final inverted mapping
value is stored on normal completion, and a thrown TypeError or
ReferenceError aborts the inversion. -/
def invertOne (reg : List DimRec) (inds : List String) (fromDim toDim : DimRec)
    (mv : List String) : Except InvErr (List (Option String)) :=
  if mv = [] then Except.ok (fromDim.value.map some)
  else invertEntries reg inds toDim (fromDim.value.zip mv) (List.replicate toDim.size none)

/-- One assignment of `setMappingValue` as a pure state update (the
behavior of a call that does not throw); used to state what the loop
computes when every entry is well formed. -/
def setPure (size : Nat) (st : List (Option String)) (c : Option Nat × String) :
    List (Option String) :=
  match c.1 with
  | some i => if i < size then st.set i (some c.2) else st
  | none => st

/-- Specification-side enumeration of the `setMappingValue` calls one
RESOLVING mapping-value entry `(fromIndName, toSubName)` makes (an
undeclared map-to name makes no call: it crashes first, see
`invertEntries`).  Used only to phrase the well-formedness hypotheses
and the position property of claim C7, not as part of the embedding of
the code path. -/
def entryCalls (reg : List DimRec) (toDim : DimRec) (p : String × String) :
    List (Option Nat × String) :=
  match lookupDim reg p.2 with
  | some toSub =>
    toSub.value.map (fun t => (toDim.value.findIdx? (fun x => x == t), p.1))
  | none => [(toDim.value.findIdx? (fun x => x == p.2), p.1)]

/-- All `setMappingValue` calls of a fully resolving mapping declaration,
in source order (specification-side, see `entryCalls`). -/
def mappingCalls (reg : List DimRec) (toDim : DimRec) (fromVals mv : List String) :
    List (Option Nat × String) :=
  (fromVals.zip mv).flatMap (entryCalls reg toDim)

def to7 : DimRec :=
  { name := "t", value := ["t1", "t2"], size := 2, family := "t", mappings := [] }

def from7 : DimRec :=
  { name := "f", value := ["f1", "f2"], size := 2, family := "f",
    mappings := [("t", ["t1", "tx"])] }

def reg7 : List DimRec := [from7, to7]

/-- The declared index names of `reg7`: "tx" is not among them. -/
def inds7 : List String := ["f1", "f2", "t1", "t2"]

/-- Index names for the second crash scenario: "x1" is a declared index
but belongs to no position of `to7`. -/
def inds7x : List String := ["f1", "f2", "t1", "t2", "x1"]

def fromW7 : DimRec :=
  { name := "f", value := ["f1", "f2"], size := 2, family := "f",
    mappings := [("t", ["t2", "t1"])] }

def regW7 : List DimRec := [fromW7, to7]

def indsW7 : List String := ["f1", "f2", "t1", "t2"]

/-- The I/O spec object of sde-generate.js, restricted to the field the
spec-loading path manipulates.  `JSON.parse` of a spec file either yields
such an object or throws; the empty object `{}` is
`dimensionFamilies := none`. -/
structure Spec where
  dimensionFamilies : Option (List (String × String))
deriving DecidableEq, Repr

/-- `parseJsonFile` in sde-generate.js: `B.read` and `JSON.parse` run
inside a `try` whose `catch` swallows every exception and keeps the
initial `result = {}` — an unreadable file (`contents = none`) and
unparseable contents (`jsonParse s = none`) both yield the empty object.
The fallible read and parse are passed explicitly. -/
def parseJsonFile (contents : Option String) (jsonParse : String → Option Spec) : Spec :=
  match contents with
  | none => { dimensionFamilies := none }
  | some s =>
    match jsonParse s with
    | none => { dimensionFamilies := none }
    | some spec => spec

/-- `parseSpec` in sde-generate.js: parse the JSON file, then, when a
`dimensionFamilies` table is present, rewrite each entry to canonical
form (`canonicalName` lives in Helpers.js and is passed abstractly). -/
def parseSpec (contents : Option String) (jsonParse : String → Option Spec)
    (canonical : String → String) : Spec :=
  match (parseJsonFile contents jsonParse).dimensionFamilies with
  | none => parseJsonFile contents jsonParse
  | some fams =>
    { dimensionFamilies := some (fams.map (fun p => (canonical p.1, canonical p.2))) }

/-- The outcome of the spec-loading step of `generate` in
sde-generate.js (`let spec = parseSpec(opts.spec)` and fall through): the
only operations that could throw sit inside `parseJsonFile`'s catch-all,
so the step always returns normally and the pipeline continues with the
parsed (possibly empty) spec; no error exit exists on this path. -/
def specLoadOutcome (contents : Option String) (jsonParse : String → Option Spec)
    (canonical : String → String) : Except String Spec :=
  Except.ok (parseSpec contents jsonParse canonical)

-- ===== THEOREMS =====

theorem charListLe_total (as bs : List Char) :
    charListLe as bs = true ∨ charListLe bs as = true := by
  induction as generalizing bs with
  | nil => exact Or.inl rfl
  | cons a as ih =>
    cases bs with
    | nil => exact Or.inr rfl
    | cons b bs =>
      by_cases hab : a.toNat < b.toNat
      · left; simp [charListLe, hab]
      · by_cases hba : b.toNat < a.toNat
        · right; simp [charListLe, hba]
        · rcases ih bs with h | h
          · left; simpa [charListLe, hab, hba] using h
          · right; simpa [charListLe, hab, hba] using h

theorem charListLe_trans {as bs cs : List Char}
    (h1 : charListLe as bs = true) (h2 : charListLe bs cs = true) :
    charListLe as cs = true := by
  induction as generalizing bs cs with
  | nil => rfl
  | cons a as ih =>
    cases bs with
    | nil => simp [charListLe] at h1
    | cons b bs =>
      cases cs with
      | nil => simp [charListLe] at h2
      | cons c cs =>
        simp only [charListLe] at h1 h2 ⊢
        by_cases hba : b.toNat < a.toNat
        · simp [if_neg (Nat.lt_asymm hba), hba] at h1
        by_cases hcb : c.toNat < b.toNat
        · simp [if_neg (Nat.lt_asymm hcb), hcb] at h2
        by_cases hab : a.toNat < b.toNat
        · have hac : a.toNat < c.toNat := by omega
          simp [hac]
        · have heqab : a.toNat = b.toNat := by omega
          by_cases hbc : b.toNat < c.toNat
          · have hac : a.toNat < c.toNat := by omega
            simp [hac]
          · have heqbc : b.toNat = c.toNat := by omega
            have hac : ¬ a.toNat < c.toNat := by omega
            have hca : ¬ c.toNat < a.toNat := by omega
            simp only [hab, hba, if_neg, if_false, ite_self] at h1
            simp only [hbc, hcb, if_neg, if_false, ite_self] at h2
            simp only [hac, hca, if_neg, if_false, ite_self]
            exact ih h1 h2

theorem strLE_total (a b : String) : strLE a b = true ∨ strLE b a = true :=
  charListLe_total _ _

theorem strLE_trans {a b c : String} (h1 : strLE a b = true)
    (h2 : strLE b c = true) : strLE a c = true :=
  charListLe_trans h1 h2

theorem mem_uniqFirst {α : Type} [DecidableEq α] (l : List α) (x : α) :
    x ∈ uniqFirst l ↔ x ∈ l := by
  induction l with
  | nil => simp [uniqFirst]
  | cons a t ih =>
    simp only [uniqFirst, List.mem_cons, List.mem_filter, ih]
    constructor
    · rintro (rfl | ⟨h, _⟩)
      · exact Or.inl rfl
      · exact Or.inr h
    · rintro (rfl | h)
      · exact Or.inl rfl
      · by_cases hx : x = a
        · exact Or.inl hx
        · exact Or.inr ⟨h, by simpa using hx⟩

theorem mem_varNames (tbl : List Variable) (n : String) :
    n ∈ varNames tbl ↔ n ∈ tbl.map (·.varName) := by
  unfold varNames
  rw [(List.perm_insertionSort _ _).mem_iff, mem_uniqFirst]

/-- The `nonAtoANames` table holds exactly the names with more than one
record. -/
theorem isNonAtoAName_iff (tbl : List Variable) (n : String) :
    isNonAtoAName tbl n = true ↔ 1 < (varsWithName tbl n).length := by
  unfold isNonAtoAName findNonAtoAVars
  simp only [List.any_eq_true, List.mem_filterMap]
  constructor
  · rintro ⟨p, ⟨name, _hname, hp⟩, heq⟩
    by_cases hlen : (varsWithName tbl name).length > 1
    · simp only [hlen, if_pos, Option.some.injEq] at hp
      have h1 : p.1 = name := by rw [← hp]
      have hn : name = n := by
        rw [← h1]; exact eq_of_beq heq
      rw [← hn]; exact hlen
    · simp [hlen] at hp
  · intro hlen
    have hmem : n ∈ varNames tbl := by
      rw [mem_varNames]
      have hne : (varsWithName tbl n) ≠ [] := by
        intro h; rw [h] at hlen; simp at hlen
      rcases List.exists_mem_of_ne_nil _ hne with ⟨v, hv⟩
      have hv' := List.mem_filter.mp hv
      refine List.mem_map.mpr ⟨v, hv'.1, ?_⟩
      exact eq_of_beq hv'.2
    refine ⟨(n, (List.range ((varsWithName tbl n).headD default).subscripts.length).map
      (fun i => !(areSubsEqual (varsWithName tbl n) i))), ⟨n, hmem, ?_⟩, by simp⟩
    simp [hlen]

theorem varsWithName_setRefIds (tbl : List Variable) (n : String) :
    varsWithName (setRefIds tbl) n =
      (varsWithName tbl n).map (fun v => { v with refId := refIdForVar tbl v }) := by
  unfold varsWithName setRefIds
  rw [List.filter_map]
  rfl

/-- Claim C1: for every record in the table after refId assignment, a
subscripted record whose varName is shared by more than one record
(non-apply-to-all) gets `varName[s1,...,sn]` as its refId, with the
subscripts exactly the record's (normal-order) subscripts; every other
record gets the bare varName, even when it is subscripted. -/
theorem claim_C1 (env : SubEnv) (tbl : List Variable) (w : Variable)
    (hw : w ∈ setRefIds tbl)
    (_hnorm : List.Sorted (fun a b => strLE (env.family a) (env.family b) = true) w.subscripts) :
    (w.subscripts ≠ [] ∧ 1 < (varsWithName (setRefIds tbl) w.varName).length →
        w.refId = w.varName ++ "[" ++ String.intercalate "," w.subscripts ++ "]") ∧
    (¬ (w.subscripts ≠ [] ∧ 1 < (varsWithName (setRefIds tbl) w.varName).length) →
        w.refId = w.varName) := by
  rcases List.mem_map.mp hw with ⟨v, hv, rfl⟩
  have hlen : (varsWithName (setRefIds tbl)
      ({ v with refId := refIdForVar tbl v } : Variable).varName).length =
      (varsWithName tbl v.varName).length := by
    rw [varsWithName_setRefIds, List.length_map]
  constructor
  · intro ⟨hsub, hmulti⟩
    rw [hlen] at hmulti
    simp only [refIdForVar]
    rw [if_pos ⟨hsub, (isNonAtoAName_iff tbl v.varName).mpr hmulti⟩]
  · intro hneg
    rw [hlen] at hneg
    simp only [refIdForVar]
    rw [if_neg]
    intro ⟨hsub, hna⟩
    exact hneg ⟨hsub, (isNonAtoAName_iff tbl v.varName).mp hna⟩

theorem claim_C1_witness :
    wC1.refId = wC1.varName ++ "[" ++ String.intercalate "," wC1.subscripts ++ "]" :=
  (claim_C1 envTrivial tblC1 wC1 (by decide) (by decide)).1 (by decide)

/-- Claim C4: when some record binds to a refId — directly by refId
equality or by name-and-subscript subsumption (equal indices match, equal
dimensions match, a dimension on the var matches an index on the
reference exactly when the dimension's value contains it, an index on the
var never matches a dimension on the reference) — `varWithRefId` resolves
the refId to exactly one such record. -/
theorem claim_C4 (env : SubEnv) (tbl : List Variable) (r : String)
    (hnd : (tbl.map (·.refId)).Nodup)
    (hex : ∃ v ∈ tbl, BindsTo env tbl r v) :
    ∃ w, varWithRefId env tbl r = some w ∧ BindsTo env tbl r w ∧
      ∀ u, varWithRefId env tbl r = some u → u = w := by
  cases hfind : tbl.find? (fun v => v.refId == r) with
  | some v =>
    have hval : varWithRefId env tbl r = some v := by
      unfold varWithRefId; rw [hfind]
    have hbeq := List.find?_some hfind
    refine ⟨v, hval, ⟨List.mem_of_find?_eq_some hfind, Or.inl (eq_of_beq hbeq)⟩, ?_⟩
    intro u hu
    rw [hval] at hu
    exact (Option.some.inj hu).symm
  | none =>
    obtain ⟨v, hv, hmem, hbind⟩ := hex
    rcases hbind with heq | ⟨hname, hsub⟩
    · exact absurd (by simp [heq] : (v.refId == r) = true)
        (by simpa using List.find?_eq_none.mp hfind v hv)
    · have hvw : v ∈ varsWithName tbl (splitRefId env r).1 :=
        List.mem_filter.mpr ⟨hv, by simp [hname]⟩
      have hvr : v.refId ∈ (varsWithName tbl (splitRefId env r).1).map (·.refId) :=
        List.mem_map_of_mem _ hvw
      have hfindsome : (((varsWithName tbl (splitRefId env r).1).map (·.refId)).find?
          (fun vr => subsMatch env (splitRefId env vr).2 (splitRefId env r).2)).isSome := by
        rw [List.find?_isSome]
        exact ⟨v.refId, hvr, hsub⟩
      obtain ⟨vr, hvrfind⟩ := Option.isSome_iff_exists.mp hfindsome
      have hvrmem := List.mem_of_find?_eq_some hvrfind
      have hvrP := List.find?_some hvrfind
      obtain ⟨u, hu_mem, hu_refid⟩ := List.mem_map.mp hvrmem
      have hu_tbl : u ∈ tbl := (List.mem_filter.mp hu_mem).1
      have hfind2 : (tbl.find? (fun x => x.refId == vr)).isSome := by
        rw [List.find?_isSome]
        exact ⟨u, hu_tbl, by simp [hu_refid]⟩
      obtain ⟨w, hwfind⟩ := Option.isSome_iff_exists.mp hfind2
      have hw_tbl := List.mem_of_find?_eq_some hwfind
      have hwbeq := List.find?_some hwfind
      have hw_refid : w.refId = vr := eq_of_beq hwbeq
      have hwu : w = u :=
        List.inj_on_of_nodup_map hnd hw_tbl hu_tbl (by rw [hw_refid, hu_refid])
      have hval : varWithRefId env tbl r = some w := by
        unfold varWithRefId
        rw [hfind, hvrfind]
        exact hwfind
      refine ⟨w, hval, ⟨hw_tbl, Or.inr ⟨?_, ?_⟩⟩, ?_⟩
      · rw [hwu]
        exact eq_of_beq (List.mem_filter.mp hu_mem).2
      · rw [hw_refid]
        exact hvrP
      · intro u' hu'
        rw [hval] at hu'
        exact (Option.some.inj hu').symm

theorem claim_C4_witness :
    ∃ w, varWithRefId envDimA tblC4 "_a[_i1]" = some w ∧
      BindsTo envDimA tblC4 "_a[_i1]" w ∧
      ∀ u, varWithRefId envDimA tblC4 "_a[_i1]" = some u → u = w :=
  claim_C4 envDimA tblC4 "_a[_i1]" (by decide) (by decide)

/-- `varWithRefId` is unchanged (up to the update) by any per-record map
that preserves `refId` and `varName` — resolution never reads the
reference lists. -/
theorem varWithRefId_map (env : SubEnv) (tbl : List Variable) (u : Variable → Variable)
    (hrid : ∀ v, (u v).refId = v.refId) (hn : ∀ v, (u v).varName = v.varName) (r : String) :
    varWithRefId env (tbl.map u) r = Option.map u (varWithRefId env tbl r) := by
  have h1 : ∀ s : String, (tbl.map u).find? (fun v => v.refId == s) =
      Option.map u (tbl.find? (fun v => v.refId == s)) := by
    intro s
    rw [List.find?_map]
    have hp : ((fun v : Variable => v.refId == s) ∘ u) = (fun v : Variable => v.refId == s) := by
      funext v
      simp [Function.comp, hrid]
    rw [hp]
  have h2 : varsWithName (tbl.map u) (splitRefId env r).1 =
      (varsWithName tbl (splitRefId env r).1).map u := by
    unfold varsWithName
    rw [List.filter_map]
    have hp : ((fun v : Variable => v.varName == (splitRefId env r).1) ∘ u) =
        (fun v : Variable => v.varName == (splitRefId env r).1) := by
      funext v
      simp [Function.comp, hn]
    rw [hp]
  have h3 : (varsWithName (tbl.map u) (splitRefId env r).1).map (·.refId) =
      (varsWithName tbl (splitRefId env r).1).map (·.refId) := by
    rw [h2, List.map_map]
    have hp : ((fun v : Variable => v.refId) ∘ u) = (fun v : Variable => v.refId) := by
      funext v
      simp [Function.comp, hrid]
    rw [hp]
  unfold varWithRefId
  rw [h1, h3]
  cases tbl.find? (fun v => v.refId == r) with
  | some v => rfl
  | none =>
    simp only [Option.map_none']
    cases ((varsWithName tbl (splitRefId env r).1).map (·.refId)).find?
        (fun vr => subsMatch env (splitRefId env vr).2 (splitRefId env r).2) with
    | some vr => exact h1 vr
    | none => rfl

/-- Claim C8: after constant-reference pruning, no surviving entry of any
record's `references` or `initReferences` resolves to a record of type
`const`, `data`, or `lookup`. -/
theorem claim_C8 (env : SubEnv) (tbl : List Variable) (v2 : Variable)
    (hv : v2 ∈ removeConstRefs env tbl) (r : String)
    (hr : r ∈ v2.references ∨ r ∈ v2.initReferences) (w : Variable)
    (hw : varWithRefId env (removeConstRefs env tbl) r = some w) :
    w.varType ≠ "const" ∧ w.varType ≠ "data" ∧ w.varType ≠ "lookup" := by
  obtain ⟨v, _hvtbl, rfl⟩ := List.mem_map.mp hv
  have hconst : refIsConst env tbl r = false := by
    rcases hr with hr | hr
    · have := (List.mem_filter.mp hr).2
      simpa using this
    · have := (List.mem_filter.mp hr).2
      simpa using this
  rw [removeConstRefs, varWithRefId_map env tbl (pruneVar env tbl)
    (fun _ => rfl) (fun _ => rfl) r] at hw
  obtain ⟨w0, hw0, rfl⟩ := Option.map_eq_some'.mp hw
  have : (w0.varType == "const" || w0.varType == "data" || w0.varType == "lookup") = false := by
    unfold refIsConst at hconst
    rw [hw0] at hconst
    exact hconst
  simp only [Bool.or_eq_false_iff, beq_eq_false_iff_ne] at this
  exact ⟨this.1.1, this.1.2, this.2⟩

theorem claim_C8_witness :
    ({ varName := "_y", subscripts := [], refId := "_y", varType := "aux",
       hasInitValue := false, references := [], initReferences := [] } : Variable).varType ≠ "const" ∧
    ({ varName := "_y", subscripts := [], refId := "_y", varType := "aux",
       hasInitValue := false, references := [], initReferences := [] } : Variable).varType ≠ "data" ∧
    ({ varName := "_y", subscripts := [], refId := "_y", varType := "aux",
       hasInitValue := false, references := [], initReferences := [] } : Variable).varType ≠ "lookup" :=
  claim_C8 envTrivial tblC8
    { varName := "_x", subscripts := [], refId := "_x", varType := "aux",
      hasInitValue := false, references := ["_y"], initReferences := [] }
    (by decide) "_y" (Or.inl (by decide)) _ (by decide)

theorem refTokens_cons_word (c : Char) (cs : List Char) (hc : isWordChar c = true) :
    refTokens (c :: cs) = pushWord c cs (refTokens cs) := by
  simp [refTokens, hc]

theorem refTokens_word_run (w rest : List Char) (hw : w ≠ [])
    (hall : ∀ c ∈ w, isWordChar c = true)
    (hrest : ∀ d, rest.head? = some d → isWordChar d = false) :
    refTokens (w ++ rest) = RefTok.word w :: refTokens rest := by
  induction w with
  | nil => exact absurd rfl hw
  | cons c w ih =>
    have hc : isWordChar c = true := hall c (List.mem_cons_self _ _)
    cases w with
    | nil =>
      rw [List.singleton_append, refTokens_cons_word c _ hc]
      cases rest with
      | nil => simp [refTokens, pushWord]
      | cons d rs =>
        have hd : isWordChar d = false := hrest d rfl
        cases hts : refTokens (d :: rs) with
        | nil => simp [pushWord]
        | cons t ts2 =>
          cases t with
          | word ww => simp [pushWord, hd]
          | lbrack => simp [pushWord]
    | cons c2 w2 =>
      have hc2 : isWordChar c2 = true := hall c2 (by simp)
      have ihres := ih (by simp) (fun x hx => hall x (List.mem_cons_of_mem _ hx))
      rw [List.cons_append, List.cons_append, refTokens_cons_word c _ hc]
      rw [List.cons_append] at ihres
      rw [ihres]
      simp [pushWord, hc2]

theorem refTokens_skip (c : Char) (rest : List Char) (hcw : isWordChar c = false)
    (hcb : c ≠ '[') : refTokens (c :: rest) = refTokens rest := by
  simp [refTokens, hcw, hcb]

theorem refTokens_lbrack (rest : List Char) :
    refTokens ('[' :: rest) = RefTok.lbrack :: refTokens rest := by
  have h : isWordChar '[' = false := by decide
  simp [refTokens, h]

theorem str_toList_append (a b : String) : (a ++ b).toList = a.toList ++ b.toList :=
  String.data_append a b

theorem intercalate_go_toList (acc : String) (xs : List String) :
    (String.intercalate.go acc "," xs).toList =
      acc.toList ++ xs.flatMap (fun x => ',' :: x.toList) := by
  induction xs generalizing acc with
  | nil => simp [String.intercalate.go]
  | cons a as ih =>
    rw [show String.intercalate.go acc "," (a :: as) =
        String.intercalate.go (acc ++ "," ++ a) "," as from rfl]
    rw [ih, List.flatMap_cons, str_toList_append, str_toList_append]
    simp

theorem intercalate_toList (s : String) (rest : List String) :
    (String.intercalate "," (s :: rest)).toList =
      s.toList ++ rest.flatMap (fun x => ',' :: x.toList) := by
  rw [show String.intercalate "," (s :: rest) = String.intercalate.go s "," rest from rfl]
  rw [intercalate_go_toList]

theorem refTokens_commaBody (subs : List String)
    (h : ∀ s ∈ subs, s.toList ≠ [] ∧ ∀ c ∈ s.toList, isWordChar c = true) :
    refTokens (subs.flatMap (fun x => ',' :: x.toList) ++ [']']) =
      subs.map (fun s => RefTok.word s.toList) := by
  induction subs with
  | nil =>
    rw [List.flatMap_nil, List.nil_append]
    rw [refTokens_skip ']' [] (by decide) (by decide)]
    simp [refTokens]
  | cons s rest ih =>
    have hs := h s (by simp)
    have hassoc : ((',' :: s.toList) ++ rest.flatMap (fun x => ',' :: x.toList)) ++ [']'] =
        ',' :: (s.toList ++ (rest.flatMap (fun x => ',' :: x.toList) ++ [']'])) := by
      simp
    rw [List.flatMap_cons, hassoc]
    rw [refTokens_skip ',' _ (by decide) (by decide)]
    rw [refTokens_word_run s.toList _ hs.1 hs.2 ?_]
    · rw [ih (fun x hx => h x (by simp [hx]))]
      simp
    · intro d hd
      cases rest with
      | nil =>
        simp at hd
        rw [← hd]
        decide
      | cons r rs =>
        rw [List.flatMap_cons] at hd
        simp at hd
        rw [← hd]
        decide

theorem splitRefIdAux_words (ws : List (List Char)) (vn : List Char)
    (subs : List (List Char)) :
    splitRefIdAux (ws.map RefTok.word) true vn subs = (vn, subs ++ ws) := by
  induction ws generalizing subs with
  | nil => simp [splitRefIdAux]
  | cons w ws ih =>
    rw [List.map_cons]
    rw [show splitRefIdAux (RefTok.word w :: ws.map RefTok.word) true vn subs =
        splitRefIdAux (ws.map RefTok.word) true vn (subs ++ [w]) from rfl]
    rw [ih]
    simp

theorem splitRefId_eq (env : SubEnv) (r : String) :
    splitRefId env r =
      (String.mk (splitRefIdAux (refTokens r.toList) false [] []).1,
        normalizeSubscripts env
          ((splitRefIdAux (refTokens r.toList) false [] []).2.map String.mk)) := rfl

/-- Claim C10: round-trip of refId construction and parsing.  For a record
whose varName and subscript names are nonempty strings of word characters
and whose subscripts are already in normal order, `splitRefId` applied to
`refIdForVar` recovers the varName together with the subscripts when the
record is non-apply-to-all, and the varName with no subscripts otherwise. -/
theorem claim_C10 (env : SubEnv) (tbl : List Variable) (v : Variable)
    (hvn1 : v.varName.toList ≠ []) (hvn2 : ∀ c ∈ v.varName.toList, isWordChar c = true)
    (hsubs : ∀ s ∈ v.subscripts, s.toList ≠ [] ∧ ∀ c ∈ s.toList, isWordChar c = true)
    (hsorted : List.Sorted (fun a b => strLE (env.family a) (env.family b) = true)
      v.subscripts) :
    splitRefId env (refIdForVar tbl v) =
      (v.varName,
        if v.subscripts ≠ [] ∧ 1 < (varsWithName tbl v.varName).length then v.subscripts
        else []) := by
  by_cases hcond : v.subscripts ≠ [] ∧ isNonAtoAName tbl v.varName
  · have hcount : v.subscripts ≠ [] ∧ 1 < (varsWithName tbl v.varName).length :=
      ⟨hcond.1, (isNonAtoAName_iff tbl v.varName).mp hcond.2⟩
    rw [if_pos hcount, refIdForVar, if_pos hcond]
    obtain ⟨s, rest, hsr⟩ : ∃ s rest, v.subscripts = s :: rest := by
      cases hv : v.subscripts with
      | nil => exact absurd hv hcond.1
      | cons a b => exact ⟨a, b, rfl⟩
    have hs := hsubs s (by rw [hsr]; simp)
    rw [hsr]
    have hsubs2 : ∀ x ∈ rest, x.toList ≠ [] ∧ ∀ c ∈ x.toList, isWordChar c = true :=
      fun x hx => hsubs x (by rw [hsr]; simp [hx])
    have hchars : (v.varName ++ "[" ++ String.intercalate "," (s :: rest) ++ "]").toList =
        v.varName.toList ++
          ('[' :: (s.toList ++ (rest.flatMap (fun x => ',' :: x.toList) ++ [']']))) := by
      rw [str_toList_append, str_toList_append, str_toList_append, intercalate_toList]
      simp
    have hbodyhead : ∀ d : Char,
        (rest.flatMap (fun x => ',' :: x.toList) ++ [']']).head? = some d →
          isWordChar d = false := by
      intro d hd
      cases rest with
      | nil => simp at hd; rw [← hd]; decide
      | cons r rs => rw [List.flatMap_cons] at hd; simp at hd; rw [← hd]; decide
    have htoks : refTokens
        (v.varName ++ "[" ++ String.intercalate "," (s :: rest) ++ "]").toList =
        (RefTok.word v.varName.toList :: RefTok.lbrack ::
          ((s.toList :: rest.map (·.toList)).map RefTok.word)) := by
      rw [hchars]
      rw [refTokens_word_run v.varName.toList _ hvn1 hvn2
        (by intro d hd; simp at hd; rw [← hd]; decide)]
      rw [refTokens_lbrack]
      rw [refTokens_word_run s.toList _ hs.1 hs.2 hbodyhead]
      rw [refTokens_commaBody rest hsubs2]
      simp
    have hparts : splitRefIdAux (refTokens
        (v.varName ++ "[" ++ String.intercalate "," (s :: rest) ++ "]").toList)
        false [] [] = (v.varName.toList, s.toList :: rest.map (·.toList)) := by
      rw [htoks]
      rw [show splitRefIdAux
            (RefTok.word v.varName.toList :: RefTok.lbrack ::
              ((s.toList :: rest.map (·.toList)).map RefTok.word)) false [] [] =
          splitRefIdAux ((s.toList :: rest.map (·.toList)).map RefTok.word) true
            v.varName.toList [] from rfl]
      rw [splitRefIdAux_words]
      simp
    rw [splitRefId_eq, hparts]
    have hmk2 : (s.toList :: rest.map (·.toList)).map String.mk = s :: rest := by
      simp only [List.map_cons, List.map_map]
      rw [show String.mk s.toList = s from rfl]
      rw [show (String.mk ∘ fun x : String => x.toList) = id from funext (fun _ => rfl)]
      simp
    simp only []
    rw [show String.mk v.varName.toList = v.varName from rfl, hmk2]
    rw [show normalizeSubscripts env (s :: rest) = s :: rest from by
      rw [normalizeSubscripts]; exact List.Sorted.insertionSort_eq (hsr ▸ hsorted)]
  · have hcount : ¬ (v.subscripts ≠ [] ∧ 1 < (varsWithName tbl v.varName).length) := by
      intro hcc
      exact hcond ⟨hcc.1, (isNonAtoAName_iff tbl v.varName).mpr hcc.2⟩
    rw [if_neg hcount, refIdForVar, if_neg hcond]
    have htoks : refTokens v.varName.toList = [RefTok.word v.varName.toList] := by
      rw [show v.varName.toList = v.varName.toList ++ ([] : List Char) from by simp]
      rw [refTokens_word_run v.varName.toList [] hvn1 hvn2 (by intro d hd; simp at hd)]
      simp [refTokens]
    rw [splitRefId_eq, htoks]
    rw [show splitRefIdAux [RefTok.word v.varName.toList] false [] [] =
        (v.varName.toList, ([] : List (List Char))) from rfl]
    simp only [List.map_nil]
    rw [show String.mk v.varName.toList = v.varName from rfl]
    rw [show normalizeSubscripts env [] = [] from rfl]

theorem claim_C10_witness :
    splitRefId envTrivial (refIdForVar tblC1
      { varName := "_a", subscripts := ["_r1"], refId := "", varType := "aux",
        hasInitValue := false, references := [], initReferences := [] }) =
      ("_a",
        if (["_r1"] : List String) ≠ [] ∧
            1 < (varsWithName tblC1 "_a").length then ["_r1"]
        else []) :=
  claim_C10 envTrivial tblC1 _ (by decide) (by decide) (by decide) (by decide)

theorem before_append_right {α : Type} {x y : α} {l2 : List α} (l1 : List α)
    (h : Before x y l2) : Before x y (l1 ++ l2) := by
  induction l1 with
  | nil => exact h
  | cons c t ih => exact Before.tail ih

theorem before_append_of_mem {α : Type} {x y : α} {l1 l2 : List α}
    (hx : x ∈ l1) (hy : y ∈ l2) : Before x y (l1 ++ l2) := by
  induction l1 with
  | nil => exact absurd hx (List.not_mem_nil x)
  | cons c t ih =>
    rcases List.mem_cons.mp hx with rfl | hx2
    · exact Before.head (List.mem_append_right t hy)
    · exact Before.tail (ih hx2)

theorem before_filterMap {α β : Type} {f : α → Option β} {x y : α} {fx fy : β}
    {l : List α} (h : Before x y l) (hx : f x = some fx) (hy : f y = some fy) :
    Before fx fy (l.filterMap f) := by
  induction h with
  | head hmem =>
    rw [List.filterMap_cons, hx]
    exact Before.head (List.mem_filterMap.mpr ⟨y, hmem, hy⟩)
  | tail hb ih =>
    rename_i c l2
    rw [List.filterMap_cons]
    cases hc : f c with
    | none => exact ih
    | some z => exact Before.tail ih

theorem before_filter {α : Type} {p : α → Bool} {x y : α} {l : List α}
    (h : Before x y l) (hx : p x = true) (hy : p y = true) :
    Before x y (l.filter p) := by
  induction h with
  | head hmem =>
    rw [List.filter_cons, if_pos hx]
    exact Before.head (List.mem_filter.mpr ⟨hmem, hy⟩)
  | tail hb ih =>
    rename_i c l2
    rw [List.filter_cons]
    cases hc : p c with
    | false => simpa using ih
    | true => simpa using Before.tail ih

theorem before_iff_decomp {α : Type} {x y : α} {l : List α} :
    Before x y l ↔ ∃ l1 l2 l3, l = l1 ++ x :: (l2 ++ y :: l3) := by
  constructor
  · intro h
    induction h with
    | head hmem =>
      obtain ⟨s, t, rfl⟩ := List.append_of_mem hmem
      exact ⟨[], s, t, rfl⟩
    | tail hb ih =>
      rename_i c l0
      obtain ⟨l1, l2, l3, rfl⟩ := ih
      exact ⟨c :: l1, l2, l3, rfl⟩
  · rintro ⟨l1, l2, l3, rfl⟩
    induction l1 with
    | nil => exact Before.head (List.mem_append_right l2 (List.mem_cons_self y l3))
    | cons c t ih => exact Before.tail ih

theorem before_reverse {α : Type} {x y : α} {l : List α} (h : Before x y l) :
    Before y x l.reverse := by
  rw [before_iff_decomp] at h ⊢
  obtain ⟨l1, l2, l3, rfl⟩ := h
  refine ⟨l3.reverse, l2.reverse, l1.reverse, ?_⟩
  simp

theorem kahn_mem {g : List (String × String)} :
    ∀ {fuel : Nat} {ns out : List String}, kahn g fuel ns = some out →
      ∀ x, x ∈ out ↔ x ∈ ns := by
  intro fuel
  induction fuel with
  | zero =>
    intro ns out h x
    by_cases hns : ns.isEmpty
    · simp only [kahn, if_pos hns, Option.some.injEq] at h
      subst h
      simp [List.isEmpty_iff.mp hns]
    · simp [kahn, hns] at h
  | succ n ih =>
    intro ns out h x
    by_cases hns : ns.isEmpty
    · simp only [kahn, if_pos hns, Option.some.injEq] at h
      subst h
      simp [List.isEmpty_iff.mp hns]
    · simp only [kahn, if_neg hns] at h
      by_cases hsrc : (kahnSources g ns).isEmpty
      · simp [hsrc] at h
      · simp only [if_neg hsrc] at h
        cases hrec : kahn g n (ns.filter fun m => !((kahnSources g ns).contains m)) with
        | none => rw [hrec] at h; simp at h
        | some out2 =>
          rw [hrec] at h
          simp only [Option.some.injEq] at h
          subst h
          have hmem2 := ih hrec x
          constructor
          · intro hx
            rcases List.mem_append.mp hx with hx | hx
            · exact (List.mem_filter.mp hx).1
            · exact (List.mem_filter.mp (hmem2.mp hx)).1
          · intro hx
            by_cases hxs : x ∈ kahnSources g ns
            · exact List.mem_append.mpr (Or.inl hxs)
            · refine List.mem_append.mpr (Or.inr (hmem2.mpr ?_))
              refine List.mem_filter.mpr ⟨hx, ?_⟩
              simp only [Bool.not_eq_eq_eq_not, Bool.not_true, Bool.not_eq_true']
              exact (Bool.not_eq_true _).mp (fun hc => hxs (List.elem_iff.mp hc))

theorem kahn_order {g : List (String × String)} :
    ∀ {fuel : Nat} {ns out : List String}, kahn g fuel ns = some out →
      ∀ {a b : String}, (a, b) ∈ g → a ∈ ns → b ∈ ns → Before a b out := by
  intro fuel
  induction fuel with
  | zero =>
    intro ns out h a b _he ha _hb
    have hne : ¬ ns.isEmpty := by
      cases ns with
      | nil => simp at ha
      | cons x t => simp
    simp [kahn, hne] at h
  | succ n ih =>
    intro ns out h a b he ha hb
    have hne : ¬ ns.isEmpty := by
      cases ns with
      | nil => simp at ha
      | cons x t => simp
    simp only [kahn, if_neg hne] at h
    by_cases hsrc : (kahnSources g ns).isEmpty
    · simp [hsrc] at h
    · simp only [if_neg hsrc] at h
      cases hrec : kahn g n (ns.filter fun m => !((kahnSources g ns).contains m)) with
      | none => rw [hrec] at h; simp at h
      | some out2 =>
        rw [hrec] at h
        simp only [Option.some.injEq] at h
        subst h
        have hbnotsrc : b ∉ kahnSources g ns := by
          intro hbs
          have hflag := (List.mem_filter.mp hbs).2
          have hany : g.any (fun e => ns.contains e.1 && e.2 == b) = true :=
            List.any_eq_true.mpr ⟨(a, b), he, by
              simp [List.elem_iff, ha]⟩
          rw [hany] at hflag
          simp at hflag
        have hbns2 : b ∈ ns.filter fun m => !((kahnSources g ns).contains m) := by
          refine List.mem_filter.mpr ⟨hb, ?_⟩
          simp only [Bool.not_eq_eq_eq_not, Bool.not_true, Bool.not_eq_true']
          exact (Bool.not_eq_true _).mp (fun hc => hbnotsrc (List.elem_iff.mp hc))
        by_cases has : a ∈ kahnSources g ns
        · exact before_append_of_mem has ((kahn_mem hrec b).mpr hbns2)
        · have hans2 : a ∈ ns.filter fun m => !((kahnSources g ns).contains m) := by
            refine List.mem_filter.mpr ⟨ha, ?_⟩
            simp only [Bool.not_eq_eq_eq_not, Bool.not_true, Bool.not_eq_true']
            exact (Bool.not_eq_true _).mp (fun hc => has (List.elem_iff.mp hc))
          exact before_append_right _ (ih hrec he hans2 hbns2)

theorem varWithRefId_self (env : SubEnv) {tbl : List Variable}
    (hnd : (tbl.map (·.refId)).Nodup) {x : Variable} (hx : x ∈ tbl) :
    varWithRefId env tbl x.refId = some x := by
  have hfs : (tbl.find? (fun v => v.refId == x.refId)).isSome := by
    rw [List.find?_isSome]
    exact ⟨x, hx, by simp⟩
  obtain ⟨w, hw⟩ := Option.isSome_iff_exists.mp hfs
  have hwbeq := List.find?_some hw
  have hwx : w = x :=
    List.inj_on_of_nodup_map hnd (List.mem_of_find?_eq_some hw) hx (eq_of_beq hwbeq)
  unfold varWithRefId
  rw [hw, hwx]

theorem varWithRefId_mem {env : SubEnv} {tbl : List Variable} {s : String}
    {w : Variable} (h : varWithRefId env tbl s = some w) : w ∈ tbl := by
  unfold varWithRefId at h
  cases hfind : tbl.find? (fun v => v.refId == s) with
  | some v =>
    rw [hfind] at h
    cases h
    exact List.mem_of_find?_eq_some hfind
  | none =>
    rw [hfind] at h
    cases hf2 : ((varsWithName tbl (splitRefId env s).1).map (·.refId)).find?
        (fun vr => subsMatch env (splitRefId env vr).2 (splitRefId env s).2) with
    | some vr =>
      rw [hf2] at h
      exact List.mem_of_find?_eq_some h
    | none =>
      rw [hf2] at h
      simp at h

theorem mem_nodesOf_fst {g : List (String × String)} {e : String × String}
    (he : e ∈ g) : e.1 ∈ nodesOf g := by
  rw [nodesOf, mem_uniqFirst]
  exact List.mem_append.mpr (Or.inl (List.mem_map_of_mem _ he))

theorem mem_nodesOf_snd {g : List (String × String)} {e : String × String}
    (he : e ∈ g) : e.2 ∈ nodesOf g := by
  rw [nodesOf, mem_uniqFirst]
  exact List.mem_append.mpr (Or.inr (List.mem_map_of_mem _ he))

theorem bang_contains_iff (l : List Variable) (v : Variable) :
    (!(l.contains v)) = true ↔ v ∉ l := by
  rw [Bool.not_eq_true']
  constructor
  · intro h hm
    have hc : l.contains v = true := List.elem_iff.mpr hm
    rw [h] at hc
    exact Bool.false_ne_true hc
  · intro h
    cases hc : l.contains v
    · rfl
    · exact absurd (List.elem_iff.mp hc) h

/-- Every endpoint of a step-time dependency edge is the refId of a
record of the requested type. -/
theorem graphOfType_endpoints (env : SubEnv) (tbl : List Variable) (t : String)
    (htype : t = "aux" ∨ t = "level")
    (htime : ∀ v ∈ tbl, v.varName = "_time" → v.varType = "") :
    ∀ e ∈ graphOfType env tbl t,
      (∃ y ∈ varsOfType t tbl, y.refId = e.1) ∧
      (∃ y ∈ varsOfType t tbl, y.refId = e.2) := by
  intro e he
  obtain ⟨v, hv, hev⟩ := List.mem_flatMap.mp he
  obtain ⟨r, hr, her⟩ := List.mem_map.mp hev
  rw [mem_uniqFirst] at hr
  obtain ⟨hr1, hr2⟩ := List.mem_filter.mp hr
  obtain ⟨s, _hs, hres⟩ := List.mem_filterMap.mp hr1
  have hrtbl : r ∈ tbl := varWithRefId_mem hres
  have hrtype : r.varType = t := eq_of_beq hr2
  have hrtime : r.varName ≠ "_time" := by
    intro hname
    have := htime r hrtbl hname
    rw [this] at hrtype
    rcases htype with ht | ht <;> rw [← hrtype] at ht <;> exact absurd ht (by decide)
  have hrv : r ∈ varsOfType t tbl := by
    refine List.mem_filter.mpr ⟨hrtbl, ?_⟩
    simp [hrtype, hrtime]
  by_cases hlev : (v.varType == "level" && r.varType == "level") = true
  · rw [if_pos hlev] at her
    rw [← her]
    exact ⟨⟨r, hrv, rfl⟩, ⟨v, hv, rfl⟩⟩
  · rw [if_neg hlev] at her
    rw [← her]
    exact ⟨⟨v, hv, rfl⟩, ⟨r, hrv, rfl⟩⟩

/-- Claim C2: the step-time sequence for a var type (`aux` or `level`) is
a topological ordering, prerequisites first, of the dependency graph
built from same-type references (with level-to-level edges inverted), and
the vars of the type participating in no edge are prepended, sorted by
refId. -/
theorem claim_C2 (env : SubEnv) (tbl : List Variable) (t : String)
    (htype : t = "aux" ∨ t = "level")
    (hnd : (tbl.map (·.refId)).Nodup)
    (htime : ∀ v ∈ tbl, v.varName = "_time" → v.varType = "")
    (seq : List Variable) (hseq : sortVarsOfType env tbl t = some seq) :
    (∃ pre suf, seq = pre ++ suf ∧
      List.Sorted (fun a b => strLE a.refId b.refId = true) pre ∧
      (∀ v, v ∈ pre ↔ v ∈ varsOfType t tbl ∧
        v.refId ∉ nodesOf (graphOfType env tbl t)) ∧
      (∀ v, v ∈ suf ↔ v ∈ varsOfType t tbl ∧
        v.refId ∈ nodesOf (graphOfType env tbl t))) ∧
    (∀ e ∈ graphOfType env tbl t, ∀ va vb,
      varWithRefId env tbl e.1 = some va → varWithRefId env tbl e.2 = some vb →
      Before vb va seq) := by
  unfold sortVarsOfType at hseq
  cases horder : modelToposort (graphOfType env tbl t) with
  | none => rw [horder] at hseq; simp at hseq
  | some order =>
    rw [horder] at hseq
    simp only [Option.some.injEq] at hseq
    have hkahn : kahn (graphOfType env tbl t) (nodesOf (graphOfType env tbl t)).length
        (nodesOf (graphOfType env tbl t)) = some order := horder
    have hedge := graphOfType_endpoints env tbl t htype htime
    have hnodevar : ∀ d ∈ nodesOf (graphOfType env tbl t),
        ∃ y ∈ varsOfType t tbl, y.refId = d := by
      intro d hd
      rw [nodesOf, mem_uniqFirst] at hd
      rcases List.mem_append.mp hd with hd | hd
      · obtain ⟨e, he, hed⟩ := List.mem_map.mp hd
        rw [← hed]
        exact (hedge e he).1
      · obtain ⟨e, he, hed⟩ := List.mem_map.mp hd
        rw [← hed]
        exact (hedge e he).2
    have hmemsorted : ∀ x, x ∈ varsOfType t
        (order.reverse.filterMap (varWithRefId env tbl)) ↔
        x ∈ varsOfType t tbl ∧ x.refId ∈ nodesOf (graphOfType env tbl t) := by
      intro x
      constructor
      · intro hx
        obtain ⟨hx1, hx2⟩ := List.mem_filter.mp hx
        obtain ⟨d, hd, hres⟩ := List.mem_filterMap.mp hx1
        have hdord : d ∈ order := List.mem_reverse.mp hd
        have hdnode : d ∈ nodesOf (graphOfType env tbl t) := (kahn_mem hkahn d).mp hdord
        obtain ⟨y, hy, hyid⟩ := hnodevar d hdnode
        have hy_tbl : y ∈ tbl := (List.mem_filter.mp hy).1
        have hresy : varWithRefId env tbl d = some y := by
          rw [← hyid]
          exact varWithRefId_self env hnd hy_tbl
        have hxy : x = y := by
          rw [hresy] at hres
          exact (Option.some.inj hres).symm
        rw [hxy, hyid]
        exact ⟨hy, hdnode⟩
      · intro ⟨hx1, hx2⟩
        have hx_tbl : x ∈ tbl := (List.mem_filter.mp hx1).1
        refine List.mem_filter.mpr ⟨?_, (List.mem_filter.mp hx1).2⟩
        refine List.mem_filterMap.mpr ⟨x.refId, ?_, varWithRefId_self env hnd hx_tbl⟩
        exact List.mem_reverse.mpr ((kahn_mem hkahn x.refId).mpr hx2)
    have hItot : IsTotal Variable (fun a b => strLE a.refId b.refId = true) :=
      ⟨fun a b => strLE_total a.refId b.refId⟩
    have hItr : IsTrans Variable (fun a b => strLE a.refId b.refId = true) :=
      ⟨fun _ _ _ h1 h2 => strLE_trans h1 h2⟩
    constructor
    · refine ⟨vsort ((varsOfType t tbl).filter
        (fun v => !((varsOfType t (order.reverse.filterMap (varWithRefId env tbl))).contains v))),
        varsOfType t (order.reverse.filterMap (varWithRefId env tbl)), hseq.symm, ?_, ?_, ?_⟩
      · exact List.sorted_insertionSort _ _
      · intro v
        rw [vsort, (List.perm_insertionSort _ _).mem_iff, List.mem_filter]
        constructor
        · intro ⟨h1, h2⟩
          refine ⟨h1, fun hnode => ?_⟩
          exact (bang_contains_iff _ _).mp h2 ((hmemsorted v).mpr ⟨h1, hnode⟩)
        · intro ⟨h1, h2⟩
          refine ⟨h1, (bang_contains_iff _ _).mpr ?_⟩
          intro hmem
          exact h2 ((hmemsorted v).mp hmem).2
      · exact hmemsorted
    · intro e he va vb hva hvb
      obtain ⟨⟨ya, hya, hyaid⟩, ⟨yb, hyb, hybid⟩⟩ := hedge e he
      have hva2 : va = ya := by
        rw [← hyaid, varWithRefId_self env hnd ((List.mem_filter.mp hya).1)] at hva
        exact (Option.some.inj hva).symm
      have hvb2 : vb = yb := by
        rw [← hybid, varWithRefId_self env hnd ((List.mem_filter.mp hyb).1)] at hvb
        exact (Option.some.inj hvb).symm
      have hord : Before e.1 e.2 order :=
        kahn_order hkahn he (mem_nodesOf_fst he) (mem_nodesOf_snd he)
      have hrev : Before e.2 e.1 order.reverse := before_reverse hord
      have hfm : Before vb va (order.reverse.filterMap (varWithRefId env tbl)) :=
        before_filterMap hrev hvb hva
      have hfl : Before vb va (varsOfType t (order.reverse.filterMap (varWithRefId env tbl))) := by
        rw [varsOfType]
        refine before_filter hfm ?_ ?_
        · rw [hvb2]
          exact (List.mem_filter.mp hyb).2
        · rw [hva2]
          exact (List.mem_filter.mp hya).2
      rw [← hseq]
      exact before_append_right _ hfl

theorem claim_C2_witness :
    (∃ pre suf, ([xC2, yC2] : List Variable) = pre ++ suf ∧
      List.Sorted (fun a b => strLE a.refId b.refId = true) pre ∧
      (∀ v, v ∈ pre ↔ v ∈ varsOfType "aux" tblC2 ∧
        v.refId ∉ nodesOf (graphOfType envTrivial tblC2 "aux")) ∧
      (∀ v, v ∈ suf ↔ v ∈ varsOfType "aux" tblC2 ∧
        v.refId ∈ nodesOf (graphOfType envTrivial tblC2 "aux"))) ∧
    (∀ e ∈ graphOfType envTrivial tblC2 "aux", ∀ va vb,
      varWithRefId envTrivial tblC2 e.1 = some va →
      varWithRefId envTrivial tblC2 e.2 = some vb →
      Before vb va [xC2, yC2]) :=
  claim_C2 envTrivial tblC2 "aux" (Or.inl rfl) (by decide) (by decide)
    [xC2, yC2] (by decide)

theorem initReach_mem {env : SubEnv} {tbl : List Variable} {v : Variable}
    (h : InitReach env tbl v) : v ∈ tbl := by
  cases h with
  | seed h1 _ => exact h1
  | step _ _ hres => exact varWithRefId_mem hres

theorem mapGet_isSome_iff (m : List (String × List String)) (k : String) :
    (mapGet m k).isSome = true ↔ ∃ p ∈ m, p.1 = k := by
  unfold mapGet
  rw [Option.isSome_map']
  rw [List.find?_isSome]
  constructor
  · rintro ⟨p, hp, hb⟩
    exact ⟨p, hp, eq_of_beq hb⟩
  · rintro ⟨p, hp, hb⟩
    exact ⟨p, hp, by simp [hb]⟩

theorem mem_mapSet {m : List (String × List String)} {k : String}
    {xs : List String} {p : String × List String} (h : p ∈ mapSet m k xs) :
    p ∈ m ∨ p = (k, xs) := by
  unfold mapSet at h
  by_cases hany : m.any (fun p => p.1 == k) = true
  · rw [if_pos hany] at h
    obtain ⟨p0, hp0, hval⟩ := List.mem_map.mp h
    by_cases hk : (p0.1 == k) = true
    · rw [if_pos hk] at hval
      exact Or.inr hval.symm
    · rw [if_neg hk] at hval
      exact Or.inl (hval ▸ hp0)
  · rw [if_neg hany] at h
    rcases List.mem_append.mp h with h | h
    · exact Or.inl h
    · exact Or.inr (List.mem_singleton.mp h)

theorem mapSet_key_mem (m : List (String × List String)) (k : String)
    (xs : List String) : ∃ p ∈ mapSet m k xs, p.1 = k ∧ p.2 = xs := by
  unfold mapSet
  by_cases hany : m.any (fun p => p.1 == k) = true
  · rw [if_pos hany]
    obtain ⟨p0, hp0, hk⟩ := List.any_eq_true.mp hany
    refine ⟨(k, xs), ?_, rfl, rfl⟩
    refine List.mem_map.mpr ⟨p0, hp0, ?_⟩
    rw [if_pos hk]
  · rw [if_neg hany]
    exact ⟨(k, xs), List.mem_append.mpr (Or.inr (List.mem_singleton.mpr rfl)), rfl, rfl⟩

theorem mapSet_keys_mono {m : List (String × List String)} {p : String × List String}
    (hp : p ∈ m) (k : String) (xs : List String) :
    ∃ p2 ∈ mapSet m k xs, p2.1 = p.1 := by
  unfold mapSet
  by_cases hany : m.any (fun p => p.1 == k) = true
  · rw [if_pos hany]
    by_cases hk : (p.1 == k) = true
    · refine ⟨(k, xs), List.mem_map.mpr ⟨p, hp, by rw [if_pos hk]⟩, (eq_of_beq hk).symm⟩
    · refine ⟨p, List.mem_map.mpr ⟨p, hp, by rw [if_neg hk]⟩, rfl⟩
  · rw [if_neg hany]
    exact ⟨p, List.mem_append.mpr (Or.inl hp), rfl⟩

theorem pushRef_mono {env : SubEnv} {tbl : List Variable}
    {m : List (String × List String)} {q : List Variable} {r : String}
    {x : Variable} (hx : x ∈ q) : x ∈ pushRef env tbl m q r := by
  unfold pushRef
  by_cases h1 : (mapGet m r).isSome = true
  · rw [if_pos h1]; exact hx
  · rw [if_neg h1]
    cases varWithRefId env tbl r with
    | none => exact hx
    | some w =>
      show x ∈ (if (w.varType != "const" && !(q.contains w)) = true then w :: q else q)
      by_cases h2 : (w.varType != "const" && !(q.contains w)) = true
      · rw [if_pos h2]; exact List.mem_cons_of_mem _ hx
      · rw [if_neg h2]; exact hx

theorem pushRef_mem {env : SubEnv} {tbl : List Variable}
    {m : List (String × List String)} {q : List Variable} {r : String}
    {x : Variable} (hx : x ∈ pushRef env tbl m q r) :
    x ∈ q ∨ varWithRefId env tbl r = some x := by
  unfold pushRef at hx
  by_cases h1 : (mapGet m r).isSome = true
  · rw [if_pos h1] at hx; exact Or.inl hx
  · rw [if_neg h1] at hx
    cases hres : varWithRefId env tbl r with
    | none => rw [hres] at hx; exact Or.inl hx
    | some w =>
      rw [hres] at hx
      have hx2 : x ∈ (if (w.varType != "const" && !(q.contains w)) = true
          then w :: q else q) := hx
      by_cases h2 : (w.varType != "const" && !(q.contains w)) = true
      · rw [if_pos h2] at hx2
        rcases List.mem_cons.mp hx2 with rfl | hx3
        · exact Or.inr rfl
        · exact Or.inl hx3
      · rw [if_neg h2] at hx2; exact Or.inl hx2

theorem pushRef_pushed {env : SubEnv} {tbl : List Variable}
    {m : List (String × List String)} {q : List Variable} {r : String}
    (h1 : (mapGet m r).isSome = false) {w : Variable}
    (hres : varWithRefId env tbl r = some w) (hw : w.varType ≠ "const") :
    w ∈ pushRef env tbl m q r := by
  unfold pushRef
  rw [if_neg (by rw [h1]; exact Bool.false_ne_true), hres]
  show w ∈ (if (w.varType != "const" && !(q.contains w)) = true then w :: q else q)
  by_cases h2 : (w.varType != "const" && !(q.contains w)) = true
  · rw [if_pos h2]; exact List.mem_cons_self _ _
  · rw [if_neg h2]
    have hne : (w.varType != "const") = true := by
      simp only [bne_iff_ne, ne_eq]
      exact hw
    rw [Bool.and_eq_true, hne] at h2
    have hcont : (q.contains w) = true := by
      cases hc : q.contains w
      · exact absurd ⟨rfl, by rw [hc]; rfl⟩ h2
      · rfl
    exact List.elem_iff.mp hcont

theorem foldl_pushRef_mono {env : SubEnv} {tbl : List Variable}
    {m : List (String × List String)} (rs : List String) :
    ∀ {q : List Variable} {x : Variable}, x ∈ q →
      x ∈ rs.foldl (pushRef env tbl m) q := by
  induction rs with
  | nil => intro q x hx; exact hx
  | cons r rs ih => intro q x hx; exact ih (pushRef_mono hx)

theorem foldl_pushRef_mem {env : SubEnv} {tbl : List Variable}
    {m : List (String × List String)} (rs : List String) :
    ∀ {q : List Variable} {x : Variable}, x ∈ rs.foldl (pushRef env tbl m) q →
      x ∈ q ∨ ∃ r ∈ rs, varWithRefId env tbl r = some x := by
  induction rs with
  | nil => intro q x hx; exact Or.inl hx
  | cons r rs ih =>
    intro q x hx
    rcases ih hx with hx | ⟨r2, hr2, hres⟩
    · rcases pushRef_mem hx with hx | hres
      · exact Or.inl hx
      · exact Or.inr ⟨r, List.mem_cons_self _ _, hres⟩
    · exact Or.inr ⟨r2, List.mem_cons_of_mem _ hr2, hres⟩

theorem foldl_pushRef_covers {env : SubEnv} {tbl : List Variable}
    (m : List (String × List String)) (rs : List String) :
    ∀ (q : List Variable), ∀ r ∈ rs, ∀ {w : Variable},
      varWithRefId env tbl r = some w → w.varType ≠ "const" →
      (mapGet m r).isSome = true ∨ w ∈ rs.foldl (pushRef env tbl m) q := by
  induction rs with
  | nil => intro q r hr; exact absurd hr (List.not_mem_nil r)
  | cons r0 rs ih =>
    intro q r hr w hres hw
    rcases List.mem_cons.mp hr with rfl | hr
    · cases hg : (mapGet m r).isSome
      · refine Or.inr ?_
        exact foldl_pushRef_mono rs (pushRef_pushed hg hres hw)
      · exact Or.inl rfl
    · exact ih _ r hr hres hw

theorem addDeps_q_mem {env : SubEnv} {tbl : List Variable} {v : Variable}
    {q : List Variable} {m : List (String × List String)} {x : Variable}
    (hx : x ∈ (addDepsToMap env tbl v q m).1) :
    x ∈ q ∨ ∃ r ∈ refIdsOf v, varWithRefId env tbl r = some x := by
  unfold addDepsToMap at hx
  by_cases he : (refIdsOf v).isEmpty = true
  · rw [if_pos he] at hx
    exact Or.inl hx
  · rw [if_neg he] at hx
    exact foldl_pushRef_mem _ hx

theorem addDeps_q_mono {env : SubEnv} {tbl : List Variable} {v : Variable}
    {q : List Variable} {m : List (String × List String)} {x : Variable}
    (hx : x ∈ q) : x ∈ (addDepsToMap env tbl v q m).1 := by
  unfold addDepsToMap
  by_cases he : (refIdsOf v).isEmpty = true
  · rw [if_pos he]
    exact hx
  · rw [if_neg he]
    exact foldl_pushRef_mono _ hx

theorem addDeps_m_mem {env : SubEnv} {tbl : List Variable} {v : Variable}
    {q : List Variable} {m : List (String × List String)} {p : String × List String}
    (hp : p ∈ (addDepsToMap env tbl v q m).2) :
    p ∈ m ∨ p = (v.refId, refIdsOf v) := by
  unfold addDepsToMap at hp
  by_cases he : (refIdsOf v).isEmpty = true
  · rw [if_pos he] at hp
    exact Or.inl hp
  · rw [if_neg he] at hp
    exact mem_mapSet hp

theorem addDeps_m_mono (env : SubEnv) (tbl : List Variable) (v : Variable)
    (q : List Variable) {m : List (String × List String)} {p : String × List String}
    (hp : p ∈ m) : ∃ p2 ∈ (addDepsToMap env tbl v q m).2, p2.1 = p.1 := by
  unfold addDepsToMap
  by_cases he : (refIdsOf v).isEmpty = true
  · rw [if_pos he]
    exact ⟨p, hp, rfl⟩
  · rw [if_neg he]
    exact mapSet_keys_mono hp _ _

theorem addDeps_key (env : SubEnv) (tbl : List Variable) {v : Variable}
    (q : List Variable) (m : List (String × List String))
    (hne : refIdsOf v ≠ []) :
    ∃ p ∈ (addDepsToMap env tbl v q m).2, p.1 = v.refId ∧ p.2 = refIdsOf v := by
  unfold addDepsToMap
  rw [if_neg (by simpa [List.isEmpty_iff] using hne)]
  exact mapSet_key_mem m v.refId (refIdsOf v)

theorem initLoop_keys_mono (env : SubEnv) (tbl : List Variable) :
    ∀ (fuel : Nat) (q : List Variable) (m m' : List (String × List String)),
    initLoop env tbl fuel q m = some m' → ∀ p ∈ m, ∃ p2 ∈ m', p2.1 = p.1 := by
  intro fuel
  induction fuel with
  | zero =>
    intro q m m' h p hp
    unfold initLoop at h
    by_cases hqe : q.isEmpty = true
    · rw [if_pos hqe] at h
      cases h
      exact ⟨p, hp, rfl⟩
    · rw [if_neg hqe] at h
      exact absurd h (by simp)
  | succ n ih =>
    intro q m m' h p hp
    cases q with
    | nil =>
      unfold initLoop at h
      cases h
      exact ⟨p, hp, rfl⟩
    | cons v rest =>
      unfold initLoop at h
      obtain ⟨p1, hp1, hk⟩ := addDeps_m_mono env tbl v rest hp
      obtain ⟨p2, hp2, hk2⟩ := ih _ _ _ h p1 hp1
      exact ⟨p2, hp2, by rw [hk2, hk]⟩

theorem initLoop_sound (env : SubEnv) (tbl : List Variable) :
    ∀ (fuel : Nat) (q : List Variable) (m m' : List (String × List String)),
    initLoop env tbl fuel q m = some m' →
    (∀ v ∈ q, v ∈ tbl ∧ InitReach env tbl v) →
    (∀ p ∈ m, ∃ u, u ∈ tbl ∧ InitReach env tbl u ∧ u.refId = p.1 ∧ p.2 = refIdsOf u) →
    ∀ p ∈ m', ∃ u, u ∈ tbl ∧ InitReach env tbl u ∧ u.refId = p.1 ∧ p.2 = refIdsOf u := by
  intro fuel
  induction fuel with
  | zero =>
    intro q m m' h _hq hm
    unfold initLoop at h
    by_cases hqe : q.isEmpty = true
    · rw [if_pos hqe] at h
      cases h
      exact hm
    · rw [if_neg hqe] at h
      exact absurd h (by simp)
  | succ n ih =>
    intro q m m' h hq hm
    cases q with
    | nil =>
      unfold initLoop at h
      cases h
      exact hm
    | cons v rest =>
      unfold initLoop at h
      refine ih _ _ _ h ?_ ?_
      · intro x hx
        rcases addDeps_q_mem hx with hx | ⟨r, hr, hres⟩
        · exact hq x (List.mem_cons_of_mem _ hx)
        · exact ⟨varWithRefId_mem hres,
            InitReach.step (hq v (List.mem_cons_self _ _)).2 hr hres⟩
      · intro p hp
        rcases addDeps_m_mem hp with hp | hpe
        · exact hm p hp
        · obtain ⟨hvtbl, hvre⟩ := hq v (List.mem_cons_self _ _)
          exact ⟨v, hvtbl, hvre, by rw [hpe], by rw [hpe]⟩

theorem initLoop_queue_key (env : SubEnv) (tbl : List Variable) :
    ∀ (fuel : Nat) (q : List Variable) (m m' : List (String × List String)),
    initLoop env tbl fuel q m = some m' →
    ∀ v ∈ q, refIdsOf v ≠ [] → ∃ p ∈ m', p.1 = v.refId := by
  intro fuel
  induction fuel with
  | zero =>
    intro q m m' h v hv _
    unfold initLoop at h
    by_cases hqe : q.isEmpty = true
    · rw [List.isEmpty_iff.mp hqe] at hv
      exact absurd hv (List.not_mem_nil v)
    · rw [if_neg hqe] at h
      exact absurd h (by simp)
  | succ n ih =>
    intro q m m' h v hv hne
    cases q with
    | nil => exact absurd hv (List.not_mem_nil v)
    | cons v0 rest =>
      unfold initLoop at h
      rcases List.mem_cons.mp hv with rfl | hv2
      · obtain ⟨p, hp, hk, _⟩ := addDeps_key env tbl rest m hne
        obtain ⟨p2, hp2, hk2⟩ := initLoop_keys_mono env tbl _ _ _ _ h p hp
        exact ⟨p2, hp2, by rw [hk2, hk]⟩
      · exact ih _ _ _ h v (addDeps_q_mono hv2) hne

theorem initLoop_closed (env : SubEnv) (tbl : List Variable)
    (hnd : (tbl.map (·.refId)).Nodup)
    (hconstAll : ∀ v ∈ tbl, ∀ r ∈ refIdsOf v, ∀ w, varWithRefId env tbl r = some w →
      w.varType ≠ "const") :
    ∀ (fuel : Nat) (q : List Variable) (m m' : List (String × List String)),
    initLoop env tbl fuel q m = some m' →
    (∀ v ∈ q, v ∈ tbl) →
    (∀ p ∈ m, ∃ u, u ∈ tbl ∧ u.refId = p.1 ∧ p.2 = refIdsOf u) →
    (∀ p ∈ m, ∀ r ∈ p.2, ∀ x, varWithRefId env tbl r = some x → refIdsOf x ≠ [] →
      (∃ p2 ∈ m, p2.1 = x.refId) ∨ x ∈ q) →
    ∀ p ∈ m', ∀ r ∈ p.2, ∀ x, varWithRefId env tbl r = some x → refIdsOf x ≠ [] →
      ∃ p2 ∈ m', p2.1 = x.refId := by
  intro fuel
  induction fuel with
  | zero =>
    intro q m m' h _hq _hm hH p hp r hr x hres hxne
    unfold initLoop at h
    by_cases hqe : q.isEmpty = true
    · rw [if_pos hqe] at h
      cases h
      rcases hH p hp r hr x hres hxne with hk | hx
      · exact hk
      · rw [List.isEmpty_iff.mp hqe] at hx
        exact absurd hx (List.not_mem_nil x)
    · rw [if_neg hqe] at h
      exact absurd h (by simp)
  | succ n ih =>
    intro q m m' h hq hm hH p hp r hr x hres hxne
    cases q with
    | nil =>
      unfold initLoop at h
      cases h
      rcases hH p hp r hr x hres hxne with hk | hx
      · exact hk
      · exact absurd hx (List.not_mem_nil x)
    | cons v rest =>
      unfold initLoop at h
      have hvtbl : v ∈ tbl := hq v (List.mem_cons_self _ _)
      by_cases hemp : (refIdsOf v).isEmpty = true
      · have hpair : addDepsToMap env tbl v rest m = (rest, m) := by
          unfold addDepsToMap
          rw [if_pos hemp]
        rw [hpair] at h
        refine ih _ _ _ h (fun y hy => hq y (List.mem_cons_of_mem _ hy)) hm
          ?_ p hp r hr x hres hxne
        intro p0 hp0 r0 hr0 x0 hres0 hx0ne
        rcases hH p0 hp0 r0 hr0 x0 hres0 hx0ne with hk | hx0
        · exact Or.inl hk
        · rcases List.mem_cons.mp hx0 with rfl | hx0in
          · exact absurd (List.isEmpty_iff.mp hemp) hx0ne
          · exact Or.inr hx0in
      · have hpair : addDepsToMap env tbl v rest m =
            ((refIdsOf v).foldl (pushRef env tbl (mapSet m v.refId (refIdsOf v))) rest,
              mapSet m v.refId (refIdsOf v)) := by
          unfold addDepsToMap
          rw [if_neg hemp]
        rw [hpair] at h
        refine ih _ _ _ h ?_ ?_ ?_ p hp r hr x hres hxne
        · intro y hy
          rcases foldl_pushRef_mem _ hy with hy | ⟨r0, _hr0, hres0⟩
          · exact hq y (List.mem_cons_of_mem _ hy)
          · exact varWithRefId_mem hres0
        · intro p0 hp0
          rcases mem_mapSet hp0 with hp0old | hp0new
          · exact hm p0 hp0old
          · exact ⟨v, hvtbl, by rw [hp0new], by rw [hp0new]⟩
        · intro p0 hp0 r0 hr0 x0 hres0 hx0ne
          rcases mem_mapSet hp0 with hp0old | hp0new
          · rcases hH p0 hp0old r0 hr0 x0 hres0 hx0ne with ⟨p2, hp2, hk2⟩ | hx0
            · obtain ⟨p3, hp3, hk3⟩ := mapSet_keys_mono hp2 v.refId (refIdsOf v)
              exact Or.inl ⟨p3, hp3, by rw [hk3, hk2]⟩
            · rcases List.mem_cons.mp hx0 with rfl | hx0in
              · obtain ⟨p4, hp4, hk4, _⟩ := mapSet_key_mem m x0.refId (refIdsOf x0)
                exact Or.inl ⟨p4, hp4, by rw [hk4]⟩
              · exact Or.inr (foldl_pushRef_mono _ hx0in)
          · have hr0v : r0 ∈ refIdsOf v := by
              rw [hp0new] at hr0
              exact hr0
            have hxconst : x0.varType ≠ "const" := hconstAll v hvtbl r0 hr0v x0 hres0
            rcases foldl_pushRef_covers (mapSet m v.refId (refIdsOf v))
                (refIdsOf v) rest r0 hr0v hres0 hxconst with hsome | hinq
            · obtain ⟨p5, hp5, hk5⟩ := (mapGet_isSome_iff _ _).mp hsome
              obtain ⟨u, hu_tbl, hu_rid, _⟩ :
                  ∃ u, u ∈ tbl ∧ u.refId = p5.1 ∧ p5.2 = refIdsOf u := by
                rcases mem_mapSet hp5 with hold | hnew
                · exact hm p5 hold
                · exact ⟨v, hvtbl, by rw [hnew], by rw [hnew]⟩
              have hueq : u.refId = r0 := by rw [hu_rid, hk5]
              have hres_u : varWithRefId env tbl r0 = some u := by
                rw [← hueq]
                exact varWithRefId_self env hnd hu_tbl
              have hxu : x0 = u := by
                rw [hres_u] at hres0
                exact (Option.some.inj hres0).symm
              refine Or.inl ⟨p5, hp5, ?_⟩
              rw [hk5, hxu, hueq]
            · exact Or.inr hinq

theorem type_flag {x : Variable} (h1 : x.varType ≠ "const") (h2 : x.varType ≠ "lookup") :
    (!(x.varType == "const" || x.varType == "lookup")) = true := by
  simp [h1, h2]

theorem type_flag_elim {x : Variable}
    (h : (!(x.varType == "const" || x.varType == "lookup")) = true) :
    x.varType ≠ "const" ∧ x.varType ≠ "lookup" := by
  simpa using h

theorem initReach_key (env : SubEnv) (tbl : List Variable)
    (hnd : (tbl.map (·.refId)).Nodup)
    (hconstAll : ∀ v ∈ tbl, ∀ r ∈ refIdsOf v, ∀ w, varWithRefId env tbl r = some w →
      w.varType ≠ "const")
    {fuel : Nat} {m' : List (String × List String)}
    (hrun : initLoop env tbl fuel (tbl.filter (fun v => v.hasInitValue)).reverse [] =
      some m') :
    ∀ x, InitReach env tbl x → refIdsOf x ≠ [] → ∃ p ∈ m', p.1 = x.refId := by
  intro x hx
  induction hx with
  | seed hmem hinit =>
    intro hne
    refine initLoop_queue_key env tbl _ _ _ _ hrun _ ?_ hne
    rw [List.mem_reverse, List.mem_filter]
    exact ⟨hmem, hinit⟩
  | step hv hr hres ih =>
    rename_i v w r
    intro hxne
    have hvne : refIdsOf v ≠ [] := List.ne_nil_of_mem hr
    obtain ⟨p, hp, hk⟩ := ih hvne
    obtain ⟨u, hu_tbl, _hu_reach, hu_rid, hu_vals⟩ :=
      initLoop_sound env tbl _ _ _ _ hrun
        (by
          intro y hy
          rw [List.mem_reverse, List.mem_filter] at hy
          exact ⟨hy.1, InitReach.seed hy.1 hy.2⟩)
        (by intro p0 hp0; exact absurd hp0 (List.not_mem_nil p0))
        p hp
    have huv : u = v := by
      apply List.inj_on_of_nodup_map hnd hu_tbl (initReach_mem hv)
      rw [hu_rid, hk]
    have hrp : r ∈ p.2 := by
      rw [hu_vals, huv]
      exact hr
    exact initLoop_closed env tbl hnd hconstAll _ _ _ _ hrun
      (by
        intro y hy
        rw [List.mem_reverse, List.mem_filter] at hy
        exact hy.1)
      (by intro p0 hp0; exact absurd hp0 (List.not_mem_nil p0))
      (by intro p0 hp0; exact absurd hp0 (List.not_mem_nil p0))
      p hp r hrp w hres hxne

/-- Claim C3: the init-time sequence covers exactly the transitive closure
of the records reachable from the seeds (records with an init value),
following `initReferences` when a record has an init value and
`references` otherwise, with `const` and `lookup` records removed; and it
is topologically sorted and reversed — every (non-`const`, non-`lookup`)
resolved init-time prerequisite of a reachable record appears before that
record in the sequence. -/
theorem claim_C3 (env : SubEnv) (tbl : List Variable)
    (hnd : (tbl.map (·.refId)).Nodup)
    (hconstAll : ∀ v ∈ tbl, ∀ r ∈ refIdsOf v, ∀ w, varWithRefId env tbl r = some w →
      w.varType ≠ "const")
    (hseed : ∀ v ∈ tbl, v.hasInitValue = true →
      v.varType ≠ "const" ∧ v.varType ≠ "lookup")
    (fuel : Nat) (seq : List Variable)
    (hseq : sortInitVars env tbl fuel = some seq) :
    (∀ x, x ∈ seq ↔
      InitReach env tbl x ∧ x.varType ≠ "const" ∧ x.varType ≠ "lookup") ∧
    (∀ u, InitReach env tbl u → ∀ r ∈ refIdsOf u, ∀ w,
      varWithRefId env tbl r = some w →
      u.varType ≠ "const" → u.varType ≠ "lookup" →
      w.varType ≠ "const" → w.varType ≠ "lookup" →
      Before w u seq) := by
  unfold sortInitVars at hseq
  split at hseq
  next => exact absurd hseq (by simp)
  next m2 hrun =>
    split at hseq
    next => exact absurd hseq (by simp)
    next order horder =>
      simp only [Option.some.injEq] at hseq
      have hkahn : kahn (initGraph m2) (nodesOf (initGraph m2)).length
          (nodesOf (initGraph m2)) = some order := horder
      have hsound : ∀ p ∈ m2, ∃ u, u ∈ tbl ∧ InitReach env tbl u ∧
          u.refId = p.1 ∧ p.2 = refIdsOf u :=
        initLoop_sound env tbl _ _ _ _ hrun
          (by
            intro y hy
            rw [List.mem_reverse, List.mem_filter] at hy
            exact ⟨hy.1, InitReach.seed hy.1 hy.2⟩)
          (by intro p0 hp0; exact absurd hp0 (List.not_mem_nil p0))
      have hreachkey := initReach_key env tbl hnd hconstAll hrun
      have hedge_char : ∀ e ∈ initGraph m2, ∃ p ∈ m2, e.1 = p.1 ∧ e.2 ∈ p.2 := by
        intro e he
        obtain ⟨p, hp, hep⟩ := List.mem_flatMap.mp he
        obtain ⟨dep, hdep, hedep⟩ := List.mem_map.mp hep
        exact ⟨p, hp, by rw [← hedep], by rw [← hedep]; exact hdep⟩
      have hnode_char : ∀ d ∈ nodesOf (initGraph m2),
          (∃ p ∈ m2, p.1 = d) ∨ (∃ p ∈ m2, d ∈ p.2) := by
        intro d hd
        rw [nodesOf, mem_uniqFirst] at hd
        rcases List.mem_append.mp hd with hd | hd
        · obtain ⟨e, he, hed⟩ := List.mem_map.mp hd
          obtain ⟨p, hp, hp1, _⟩ := hedge_char e he
          exact Or.inl ⟨p, hp, by rw [← hp1, hed]⟩
        · obtain ⟨e, he, hed⟩ := List.mem_map.mp hd
          obtain ⟨p, hp, _, hp2⟩ := hedge_char e he
          exact Or.inr ⟨p, hp, by rw [← hed]; exact hp2⟩
      have hkey_edge : ∀ x, InitReach env tbl x → refIdsOf x ≠ [] →
          ∃ p ∈ m2, p.1 = x.refId ∧ p.2 = refIdsOf x := by
        intro x hx hxne
        obtain ⟨p, hp, hk⟩ := hreachkey x hx hxne
        obtain ⟨u, hu_tbl, _, hu_rid, hu_vals⟩ := hsound p hp
        have hux : u = x := by
          apply List.inj_on_of_nodup_map hnd hu_tbl (initReach_mem hx)
          rw [hu_rid, hk]
        exact ⟨p, hp, hk, by rw [hu_vals, hux]⟩
      have hmemS : ∀ x, x ∈ (order.reverse.filterMap (varWithRefId env tbl)).filter
          (fun v => !(v.varType == "const" || v.varType == "lookup")) →
          InitReach env tbl x ∧ x.varType ≠ "const" ∧ x.varType ≠ "lookup" := by
        intro x hx
        obtain ⟨hx1, hx2⟩ := List.mem_filter.mp hx
        obtain ⟨htc, htl⟩ := type_flag_elim hx2
        obtain ⟨d, hd, hres⟩ := List.mem_filterMap.mp hx1
        have hdnode : d ∈ nodesOf (initGraph m2) :=
          (kahn_mem hkahn d).mp (List.mem_reverse.mp hd)
        rcases hnode_char d hdnode with ⟨p, hp, hpk⟩ | ⟨p, hp, hpv⟩
        · obtain ⟨u, hu_tbl, hu_reach, hu_rid, _⟩ := hsound p hp
          have hres_u : varWithRefId env tbl d = some u := by
            rw [← hpk, ← hu_rid]
            exact varWithRefId_self env hnd hu_tbl
          have hxu : x = u := by
            rw [hres_u] at hres
            exact (Option.some.inj hres).symm
          exact ⟨hxu ▸ hu_reach, htc, htl⟩
        · obtain ⟨u, _, hu_reach, _, hu_vals⟩ := hsound p hp
          have hdref : d ∈ refIdsOf u := by
            rw [← hu_vals]
            exact hpv
          exact ⟨InitReach.step hu_reach hdref hres, htc, htl⟩
      have hStoSeq : ∀ x, x ∈ (order.reverse.filterMap (varWithRefId env tbl)).filter
          (fun v => !(v.varType == "const" || v.varType == "lookup")) → x ∈ seq := by
        intro x hx
        rw [← hseq]
        exact List.mem_append.mpr (Or.inr hx)
      have hSmem : ∀ x, InitReach env tbl x → x.varType ≠ "const" →
          x.varType ≠ "lookup" → ∀ d, d ∈ nodesOf (initGraph m2) →
          varWithRefId env tbl d = some x →
          x ∈ (order.reverse.filterMap (varWithRefId env tbl)).filter
            (fun v => !(v.varType == "const" || v.varType == "lookup")) := by
        intro x _ htc htl d hdnode hres
        refine List.mem_filter.mpr ⟨?_, type_flag htc htl⟩
        refine List.mem_filterMap.mpr ⟨d, ?_, hres⟩
        exact List.mem_reverse.mpr ((kahn_mem hkahn d).mpr hdnode)
      constructor
      · intro x
        constructor
        · intro hx
          rw [← hseq] at hx
          rcases List.mem_append.mp hx with hx | hx
          · rw [vsort, (List.perm_insertionSort _ _).mem_iff] at hx
            obtain ⟨hx1, _⟩ := List.mem_filter.mp hx
            obtain ⟨hx_tbl, hx_init⟩ := List.mem_filter.mp hx1
            exact ⟨InitReach.seed hx_tbl hx_init, hseed x hx_tbl hx_init⟩
          · exact hmemS x hx
        · intro ⟨hx_reach, htc, htl⟩
          by_cases hrefs : refIdsOf x = []
          · cases hx_reach with
            | seed hmem hinit =>
              by_cases hS : x ∈ (order.reverse.filterMap (varWithRefId env tbl)).filter
                  (fun v => !(v.varType == "const" || v.varType == "lookup"))
              · exact hStoSeq x hS
              · rw [← hseq]
                refine List.mem_append.mpr (Or.inl ?_)
                rw [vsort, (List.perm_insertionSort _ _).mem_iff]
                refine List.mem_filter.mpr ⟨List.mem_filter.mpr ⟨hmem, hinit⟩, ?_⟩
                exact (bang_contains_iff _ _).mpr hS
            | step hu hr hres =>
              rename_i u r
              have hune : refIdsOf u ≠ [] := List.ne_nil_of_mem hr
              obtain ⟨p, hp, hpk, hpv⟩ := hkey_edge u hu hune
              have hredge : (p.1, r) ∈ initGraph m2 := by
                refine List.mem_flatMap.mpr ⟨p, hp, ?_⟩
                refine List.mem_map.mpr ⟨r, ?_, rfl⟩
                rw [hpv]
                exact hr
              have hrnode : r ∈ nodesOf (initGraph m2) := mem_nodesOf_snd hredge
              exact hStoSeq x (hSmem x (InitReach.step hu hr hres) htc htl r hrnode hres)
          · obtain ⟨p, hp, hpk, hpv⟩ := hkey_edge x hx_reach hrefs
            obtain ⟨r0, hr0⟩ := List.exists_mem_of_ne_nil (refIdsOf x) hrefs
            have hredge : (p.1, r0) ∈ initGraph m2 := by
              refine List.mem_flatMap.mpr ⟨p, hp, ?_⟩
              refine List.mem_map.mpr ⟨r0, ?_, rfl⟩
              rw [hpv]
              exact hr0
            have hxnode : x.refId ∈ nodesOf (initGraph m2) := by
              have := mem_nodesOf_fst hredge
              rw [← hpk]
              exact this
            exact hStoSeq x (hSmem x hx_reach htc htl x.refId hxnode
              (varWithRefId_self env hnd (initReach_mem hx_reach)))
      · intro u hu r hr w hres hutc hutl hwtc hwtl
        have hune : refIdsOf u ≠ [] := List.ne_nil_of_mem hr
        obtain ⟨p, hp, hpk, hpv⟩ := hkey_edge u hu hune
        have hredge : (p.1, r) ∈ initGraph m2 := by
          refine List.mem_flatMap.mpr ⟨p, hp, ?_⟩
          refine List.mem_map.mpr ⟨r, ?_, rfl⟩
          rw [hpv]
          exact hr
        have hord : Before p.1 r order :=
          kahn_order hkahn hredge (mem_nodesOf_fst hredge) (mem_nodesOf_snd hredge)
        have hordu : Before u.refId r order := by
          rw [← hpk]
          exact hord
        have hrev : Before r u.refId order.reverse := before_reverse hordu
        have hfm : Before w u (order.reverse.filterMap (varWithRefId env tbl)) :=
          before_filterMap hrev hres (varWithRefId_self env hnd (initReach_mem hu))
        have hfl : Before w u ((order.reverse.filterMap (varWithRefId env tbl)).filter
            (fun v => !(v.varType == "const" || v.varType == "lookup"))) :=
          before_filter hfm (type_flag hwtc hwtl) (type_flag hutc hutl)
        rw [← hseq]
        exact before_append_right _ hfl

theorem claim_C3_witness :
    (∀ x, x ∈ ([vInitC3, vStockC3] : List Variable) ↔
      InitReach envTrivial tblC3 x ∧ x.varType ≠ "const" ∧ x.varType ≠ "lookup") ∧
    (∀ u, InitReach envTrivial tblC3 u → ∀ r ∈ refIdsOf u, ∀ w,
      varWithRefId envTrivial tblC3 r = some w →
      u.varType ≠ "const" → u.varType ≠ "lookup" →
      w.varType ≠ "const" → w.varType ≠ "lookup" →
      Before w u [vInitC3, vStockC3]) :=
  claim_C3 envTrivial tblC3 (by decide) (by decide) (by decide) 5
    [vInitC3, vStockC3] (by decide)

theorem charListLe_refl (l : List Char) : charListLe l l = true := by
  induction l with
  | nil => rfl
  | cons a t ih => simp [charListLe, ih]

theorem strLE_refl (s : String) : strLE s s = true :=
  charListLe_refl _

theorem mem_of_getLast_eq {α : Type} :
    ∀ {l : List α} {a : α}, l.getLast? = some a → a ∈ l := by
  intro l
  induction l with
  | nil =>
    intro a h
    simp at h
  | cons b t ih =>
    intro a h
    cases t with
    | nil =>
      simp only [List.getLast?_singleton, Option.some.injEq] at h
      rw [← h]
      exact List.mem_cons_self _ _
    | cons c t2 =>
      rw [List.getLast?_cons_cons] at h
      exact List.mem_cons_of_mem _ (ih h)

theorem sorted_getLast_rel {α : Type} {r : α → α → Prop} :
    ∀ {l : List α}, List.Sorted r l → ∀ {m : α}, l.getLast? = some m →
      ∀ x ∈ l, r x m ∨ x = m := by
  intro l
  induction l with
  | nil =>
    intro _ m hm
    simp at hm
  | cons a t ih =>
    intro hs m hm x hx
    cases t with
    | nil =>
      simp only [List.getLast?_singleton, Option.some.injEq] at hm
      rcases List.mem_singleton.mp hx with rfl
      exact Or.inr hm
    | cons b t2 =>
      rw [List.getLast?_cons_cons] at hm
      rcases List.mem_cons.mp hx with rfl | hx2
      · have hmmem : m ∈ b :: t2 := mem_of_getLast_eq hm
        exact Or.inl ((List.sorted_cons.mp hs).1 m hmmem)
      · exact ih (List.sorted_cons.mp hs).2 hm x hx2

/-- Claim C5 counterexample: two dimensions of equal size both containing
the first index; the code resolves the family to the JavaScript-smaller
name (`a`), while the claim's tie-break "by descending name" picks the
greater name (`b`).  (The source comment agrees with the code: "choose
the one that comes first in alpha sort order".) -/
theorem claim_C5_counterexample :
    (resolveFamily [dimA5, dimB5] [] dimA5).family = "a" ∧
    familySpecClaim [dimA5, dimB5] dimA5 = some "b" ∧
    ("a" : String) ≠ "b" := by
  decide

/-- Claim C5 (amended): a spec `dimensionFamilies` entry is used directly;
otherwise the family of a dimension with first index `index` is the name
of a candidate (a dimension whose value contains `index`) of maximal
size, and among the maximal-size candidates it carries the JavaScript
*least* name (ascending tie-break, not descending). -/
theorem claim_C5 (allDims : List DimRec) (specFams : List (String × String))
    (dim : DimRec) :
    (∀ p, specFams.find? (fun q => q.1 == dim.name) = some p →
      (resolveFamily allDims specFams dim).family = p.2) ∧
    (specFams.find? (fun q => q.1 == dim.name) = none →
      ∀ index rest, dim.value = index :: rest → dim ∈ allDims →
      ∃ dstar, dstar ∈ allDims.filter (fun d => d.value.contains index) ∧
        (resolveFamily allDims specFams dim).family = dstar.name ∧
        ∀ d2 ∈ allDims.filter (fun d => d.value.contains index),
          d2.size ≤ dstar.size ∧
          (d2.size = dstar.size → strLE dstar.name d2.name = true)) := by
  constructor
  · intro p hp
    unfold resolveFamily
    simp only [hp, Option.map_some']
  · intro hnone index rest hval hmem
    have hItot : IsTotal DimRec dimLE := by
      constructor
      intro d1 d2
      unfold dimLE
      rcases Nat.lt_trichotomy d1.size d2.size with h | h | h
      · exact Or.inl (Or.inl h)
      · rcases strLE_total d2.name d1.name with hn | hn
        · exact Or.inl (Or.inr ⟨h, hn⟩)
        · exact Or.inr (Or.inr ⟨h.symm, hn⟩)
      · exact Or.inr (Or.inl h)
    have hItr : IsTrans DimRec dimLE := by
      constructor
      intro d1 d2 d3 h12 h23
      unfold dimLE at h12 h23 ⊢
      rcases h12 with h12 | ⟨he12, hn12⟩
      · rcases h23 with h23 | ⟨he23, _⟩
        · exact Or.inl (Nat.lt_trans h12 h23)
        · exact Or.inl (he23 ▸ h12)
      · rcases h23 with h23 | ⟨he23, hn23⟩
        · exact Or.inl (he12 ▸ h23)
        · exact Or.inr ⟨he12.trans he23, strLE_trans hn23 hn12⟩
    have hcand : dim ∈ allDims.filter (fun d => d.value.contains index) := by
      refine List.mem_filter.mpr ⟨hmem, ?_⟩
      rw [hval]
      exact List.elem_iff.mpr (List.mem_cons_self _ _)
    have hsne : List.insertionSort dimLE
        (allDims.filter (fun d => d.value.contains index)) ≠ [] := by
      intro hnil
      have := (List.perm_insertionSort dimLE
        (allDims.filter (fun d => d.value.contains index))).mem_iff.mpr hcand
      rw [hnil] at this
      exact absurd this (List.not_mem_nil dim)
    obtain ⟨dstar, hdstar⟩ := Option.isSome_iff_exists.mp
      (List.getLast?_isSome.mpr hsne)
    have hmax := sorted_getLast_rel (List.sorted_insertionSort dimLE _) hdstar
    have hdmem : dstar ∈ allDims.filter (fun d => d.value.contains index) := by
      rw [← (List.perm_insertionSort dimLE _).mem_iff]
      exact mem_of_getLast_eq hdstar
    refine ⟨dstar, hdmem, ?_, ?_⟩
    · unfold resolveFamily
      simp only [hnone, Option.map_none', hval, hdstar]
    · intro d2 hd2
      have hd2s : d2 ∈ List.insertionSort dimLE
          (allDims.filter (fun d => d.value.contains index)) :=
        (List.perm_insertionSort dimLE _).mem_iff.mpr hd2
      rcases hmax d2 hd2s with hle | heq
      · unfold dimLE at hle
        rcases hle with hlt | ⟨heqs, hn⟩
        · exact ⟨Nat.le_of_lt hlt, fun hc => absurd hc (by omega)⟩
        · exact ⟨Nat.le_of_eq heqs, fun _ => hn⟩
      · rw [heq]
        exact ⟨Nat.le_refl _, fun _ => strLE_refl _⟩

theorem claim_C5_witness :
    ∃ dstar, dstar ∈ ([dimA5, dimB5] : List DimRec).filter
        (fun d => d.value.contains "i") ∧
      (resolveFamily [dimA5, dimB5] [] dimA5).family = dstar.name ∧
      ∀ d2 ∈ ([dimA5, dimB5] : List DimRec).filter (fun d => d.value.contains "i"),
        d2.size ≤ dstar.size ∧
        (d2.size = dstar.size → strLE dstar.name d2.name = true) :=
  (claim_C5 [dimA5, dimB5] [] dimA5).2 (by decide) "i" [] (by decide) (by decide)

/-- Claim C6 counterexample: on the cyclic registry `a = [b]`, `b = [a]`
the expansion loop reaches a fixpoint after two passes and returns
normally — there is no CyclicDimension failure anywhere in the code — and
the dimension name `a` is still present in dimension `a`'s value. -/
theorem claim_C6_counterexample :
    expandLoop 3 regC6 = some regC6out ∧
    "a" ∈ (regC6out.headD default).value ∧ isDimName regC6out "a" = true := by
  decide

theorem lookupDim_mem_name {reg : List DimRec} {s : String} {d : DimRec}
    (h : lookupDim reg s = some d) : d ∈ reg ∧ d.name = s := by
  rw [lookupDim] at h
  have h1 := List.mem_of_find?_eq_some h
  have h2 := List.find?_some h
  exact ⟨h1, eq_of_beq h2⟩

theorem lookupDim_self {reg : List DimRec} (hnd : (reg.map (·.name)).Nodup)
    {d : DimRec} (hd : d ∈ reg) : lookupDim reg d.name = some d := by
  have hfs : (reg.find? (fun x => x.name == d.name)).isSome := by
    rw [List.find?_isSome]
    exact ⟨d, hd, beq_self_eq_true d.name⟩
  obtain ⟨w, hw⟩ := Option.isSome_iff_exists.mp hfs
  have hwb := List.find?_some hw
  have hwb2 : (w.name == d.name) = true := hwb
  have hwn := eq_of_beq hwb2
  have hwd : w = d :=
    List.inj_on_of_nodup_map hnd (List.mem_of_find?_eq_some hw) hd hwn
  rw [lookupDim, hw, hwd]

theorem lookup_isSome_iff (reg : List DimRec) (s : String) :
    (lookupDim reg s).isSome = true ↔ s ∈ reg.map (·.name) := by
  rw [lookupDim, List.find?_isSome]
  constructor
  · rintro ⟨d, hd, hb⟩
    exact List.mem_map.mpr ⟨d, hd, eq_of_beq hb⟩
  · intro h
    obtain ⟨d, hd, hdn⟩ := List.mem_map.mp h
    exact ⟨d, hd, by simp [hdn]⟩

theorem isDimName_congr_names {reg1 reg2 : List DimRec}
    (h : reg1.map (·.name) = reg2.map (·.name)) (s : String) :
    isDimName reg1 s = isDimName reg2 s := by
  unfold isDimName
  have h1 := lookup_isSome_iff reg1 s
  have h2 := lookup_isSome_iff reg2 s
  rw [h] at h1
  cases hb : (lookupDim reg2 s).isSome
  · cases hb1 : (lookupDim reg1 s).isSome
    · rfl
    · exfalso
      have hm := h1.mp hb1
      rw [← h2, hb] at hm
      exact Bool.false_ne_true hm
  · cases hb1 : (lookupDim reg1 s).isSome
    · exfalso
      have hm := h2.mp hb
      rw [← h1, hb1] at hm
      exact Bool.false_ne_true hm
    · rfl

theorem updateDim_name_pres (n : String) (newVal : List String) (d : DimRec) :
    ((fun d : DimRec =>
      if d.name == n then { d with value := newVal, size := newVal.length } else d) d).name
      = d.name := by
  show (if (d.name == n) = true
    then ({ d with value := newVal, size := newVal.length } : DimRec) else d).name = d.name
  by_cases h : (d.name == n) = true
  · rw [if_pos h]
  · rw [if_neg h]

theorem updateDim_names (reg : List DimRec) (n : String) (newVal : List String) :
    (updateDim reg n newVal).map (·.name) = reg.map (·.name) := by
  unfold updateDim
  rw [List.map_map]
  exact List.map_congr_left (fun d _ => updateDim_name_pres n newVal d)

theorem phiVal_append (isDim : String → Bool) (L : Nat) (rk : String → Nat)
    (v1 v2 : List String) :
    phiVal isDim L rk (v1 ++ v2) = phiVal isDim L rk v1 + phiVal isDim L rk v2 := by
  unfold phiVal
  rw [List.map_append, List.sum_append]

theorem phiVal_expandValue (reg : List DimRec) (isDim : String → Bool) (L : Nat)
    (rk : String → Nat) (value : List String) :
    phiVal isDim L rk (expandValue reg value) =
      (value.map (fun s =>
        match lookupDim reg s with
        | some d => phiVal isDim L rk d.value
        | none => phiVal isDim L rk [s])).sum := by
  induction value with
  | nil => rfl
  | cons s rest ih =>
    rw [expandValue, List.flatMap_cons, ← expandValue, phiVal_append, ih, List.map_cons,
      List.sum_cons]
    cases lookupDim reg s with
    | some d => rfl
    | none => rfl

theorem expandValue_id_of_none (reg : List DimRec) (value : List String)
    (h : ∀ s ∈ value, lookupDim reg s = none) : expandValue reg value = value := by
  induction value with
  | nil => rfl
  | cons s rest ih =>
    rw [expandValue, List.flatMap_cons, ← expandValue]
    rw [h s (List.mem_cons_self _ _), ih (fun x hx => h x (List.mem_cons_of_mem _ hx))]
    rfl

theorem phiVal_single (isDim : String → Bool) (L : Nat) (rk : String → Nat) (s : String) :
    phiVal isDim L rk [s] = if isDim s then (L + 1) ^ rk s else 0 := by
  unfold phiVal
  rw [List.map_cons, List.map_nil, List.sum_cons, List.sum_nil, Nat.add_zero]

theorem phiVal_lt_pow (isDim : String → Bool) (L : Nat) (rk : String → Nat)
    {value : List String} {r : Nat}
    (hlen : value.length ≤ L)
    (hr : ∀ s ∈ value, isDim s = true → rk s < r) :
    phiVal isDim L rk value < (L + 1) ^ r := by
  cases r with
  | zero =>
    have hz : phiVal isDim L rk value = 0 := by
      unfold phiVal
      apply List.sum_eq_zero
      intro x hx
      obtain ⟨s, hs, hxe⟩ := List.mem_map.mp hx
      by_cases hd : isDim s = true
      · exact absurd (hr s hs hd) (Nat.not_lt_zero _)
      · rw [← hxe, if_neg hd]
    rw [hz, pow_zero]
    exact Nat.one_pos
  | succ r2 =>
    have hterm : ∀ x ∈ value.map (fun s => if isDim s then (L + 1) ^ rk s else 0),
        x ≤ (L + 1) ^ r2 := by
      intro x hx
      obtain ⟨s, hs, hxe⟩ := List.mem_map.mp hx
      rw [← hxe]
      by_cases hd : isDim s = true
      · rw [if_pos hd]
        exact Nat.pow_le_pow_right (Nat.succ_pos L) (Nat.lt_succ_iff.mp (hr s hs hd))
      · rw [if_neg hd]
        exact Nat.zero_le _
    have hsum := List.sum_le_card_nsmul _ _ hterm
    rw [List.length_map, smul_eq_mul] at hsum
    unfold phiVal
    calc (value.map (fun s => if isDim s then (L + 1) ^ rk s else 0)).sum
        ≤ value.length * (L + 1) ^ r2 := hsum
      _ ≤ L * (L + 1) ^ r2 := Nat.mul_le_mul_right _ hlen
      _ < (L + 1) * (L + 1) ^ r2 :=
          mul_lt_mul_of_pos_right (Nat.lt_succ_self L) (pow_pos (Nat.succ_pos L) r2)
      _ = (L + 1) ^ (r2 + 1) := by rw [pow_succ, Nat.mul_comm]

theorem expand_term_le (reg : List DimRec) (isDim : String → Bool) (L : Nat)
    (rk : String → Nat)
    (hdim : ∀ s, isDim s = isDimName reg s)
    (hinv : ∀ d ∈ reg, phiVal isDim L rk d.value < (L + 1) ^ rk d.name)
    (s : String) :
    (match lookupDim reg s with
      | some d => phiVal isDim L rk d.value
      | none => phiVal isDim L rk [s]) ≤ (if isDim s then (L + 1) ^ rk s else 0) := by
  cases hls : lookupDim reg s with
  | some d =>
    obtain ⟨hdm, hdn⟩ := lookupDim_mem_name hls
    have hdims : isDim s = true := by
      rw [hdim s]
      unfold isDimName
      rw [hls]
      rfl
    rw [if_pos hdims, ← hdn]
    exact Nat.le_of_lt (hinv d hdm)
  | none =>
    have hdims : isDim s = false := by
      rw [hdim s]
      unfold isDimName
      rw [hls]
      rfl
    rw [phiVal_single, hdims]

theorem phiVal_expand_le (reg : List DimRec) (isDim : String → Bool) (L : Nat)
    (rk : String → Nat)
    (hdim : ∀ s, isDim s = isDimName reg s)
    (hinv : ∀ d ∈ reg, phiVal isDim L rk d.value < (L + 1) ^ rk d.name)
    (value : List String) :
    phiVal isDim L rk (expandValue reg value) ≤ phiVal isDim L rk value := by
  rw [phiVal_expandValue]
  unfold phiVal
  exact List.sum_le_sum (fun s _ => expand_term_le reg isDim L rk hdim hinv s)

theorem phiVal_expand_lt (reg : List DimRec) (isDim : String → Bool) (L : Nat)
    (rk : String → Nat)
    (hdim : ∀ s, isDim s = isDimName reg s)
    (hinv : ∀ d ∈ reg, phiVal isDim L rk d.value < (L + 1) ^ rk d.name)
    {value : List String} (hex : ∃ s ∈ value, isDimName reg s = true) :
    phiVal isDim L rk (expandValue reg value) < phiVal isDim L rk value := by
  rw [phiVal_expandValue]
  unfold phiVal
  apply List.sum_lt_sum
  · exact fun s _ => expand_term_le reg isDim L rk hdim hinv s
  · obtain ⟨s, hs, hds⟩ := hex
    refine ⟨s, hs, ?_⟩
    unfold isDimName at hds
    obtain ⟨d, hls⟩ := Option.isSome_iff_exists.mp hds
    obtain ⟨hdm, hdn⟩ := lookupDim_mem_name hls
    have hdims : isDim s = true := by
      rw [hdim s]
      unfold isDimName
      rw [hls]
      rfl
    show (match lookupDim reg s with
      | some d => phiVal isDim L rk d.value
      | none => phiVal isDim L rk [s]) < (if isDim s then (L + 1) ^ rk s else 0)
    rw [hls]
    rw [if_pos hdims, ← hdn]
    exact hinv d hdm

theorem nodim_of_fixpoint (reg : List DimRec) (isDim : String → Bool) (L : Nat)
    (rk : String → Nat)
    (hdim : ∀ s, isDim s = isDimName reg s)
    (hinv : ∀ d ∈ reg, phiVal isDim L rk d.value < (L + 1) ^ rk d.name)
    {value : List String} (hfix : expandValue reg value = value) :
    ∀ s ∈ value, isDimName reg s = false := by
  intro s hs
  cases hb : isDimName reg s with
  | false => rfl
  | true =>
    exfalso
    have hlt := phiVal_expand_lt reg isDim L rk hdim hinv ⟨s, hs, hb⟩
    rw [hfix] at hlt
    exact Nat.lt_irrefl _ hlt

theorem updateDim_of_ne (reg : List DimRec) (n : String) (newVal : List String)
    (h : ∀ e ∈ reg, (e.name == n) = false) : updateDim reg n newVal = reg := by
  unfold updateDim
  have hc : ∀ e ∈ reg,
      (fun d : DimRec =>
        if d.name == n then { d with value := newVal, size := newVal.length } else d) e
        = id e := by
    intro e he
    show (if (e.name == n) = true
      then ({ e with value := newVal, size := newVal.length } : DimRec) else e) = e
    rw [h e he]
    rw [if_neg (fun hc => Bool.false_ne_true hc)]
  rw [List.map_congr_left hc, List.map_id]

theorem phiReg_cons (isDim : String → Bool) (L : Nat) (rk : String → Nat)
    (d : DimRec) (rest : List DimRec) :
    phiReg isDim L rk (d :: rest) = phiVal isDim L rk d.value + phiReg isDim L rk rest := by
  unfold phiReg
  rw [List.map_cons, List.sum_cons]

theorem phiReg_updateDim (isDim : String → Bool) (L : Nat) (rk : String → Nat)
    {reg : List DimRec} {n : String} {d : DimRec} (newVal : List String)
    (hnd : (reg.map (·.name)).Nodup) (hls : lookupDim reg n = some d) :
    phiReg isDim L rk (updateDim reg n newVal) + phiVal isDim L rk d.value
      = phiReg isDim L rk reg + phiVal isDim L rk newVal := by
  induction reg with
  | nil => exact absurd hls (by rw [lookupDim]; exact fun hc => Option.noConfusion hc)
  | cons x rest ih =>
    rw [List.map_cons, List.nodup_cons] at hnd
    rw [lookupDim, List.find?_cons] at hls
    unfold updateDim
    rw [List.map_cons]
    cases hpx : (x.name == n) with
    | true =>
      rw [hpx] at hls
      have hxd : x = d := Option.some.inj hls
      have hxn : x.name = n := eq_of_beq hpx
      have hrest : rest.map (fun d : DimRec =>
          if d.name == n then { d with value := newVal, size := newVal.length } else d)
          = rest := by
        have hne := updateDim_of_ne rest n newVal (fun e he => by
          cases hb : (e.name == n) with
          | false => rfl
          | true =>
            exfalso
            exact hnd.1 (by
              rw [hxn, ← eq_of_beq hb]
              exact List.mem_map.mpr ⟨e, he, rfl⟩))
        rw [updateDim] at hne
        exact hne
      rw [hrest, if_pos rfl, phiReg_cons, phiReg_cons, ← hxd]
      have hproj : ({ x with value := newVal, size := newVal.length } : DimRec).value
          = newVal := rfl
      rw [hproj]
      omega
    | false =>
      rw [hpx] at hls
      have hih := ih hnd.2 (by rw [lookupDim]; exact hls)
      rw [updateDim] at hih
      rw [if_neg Bool.false_ne_true, phiReg_cons, phiReg_cons]
      omega

theorem hinv_updateDim (isDim : String → Bool) (L : Nat) (rk : String → Nat)
    {reg : List DimRec} {n : String} {d : DimRec} {newVal : List String}
    (hnd : (reg.map (·.name)).Nodup) (hls : lookupDim reg n = some d)
    (hinv : ∀ e ∈ reg, phiVal isDim L rk e.value < (L + 1) ^ rk e.name)
    (hle : phiVal isDim L rk newVal ≤ phiVal isDim L rk d.value) :
    ∀ e ∈ updateDim reg n newVal, phiVal isDim L rk e.value < (L + 1) ^ rk e.name := by
  intro e he
  rw [updateDim] at he
  obtain ⟨e0, he0, hfe⟩ := List.mem_map.mp he
  obtain ⟨hdm, hdn⟩ := lookupDim_mem_name hls
  cases hbe : (e0.name == n) with
  | true =>
    have hfe2 : e = { e0 with value := newVal, size := newVal.length } := by
      rw [← hfe]
      show (if (e0.name == n) = true
        then ({ e0 with value := newVal, size := newVal.length } : DimRec) else e0)
        = { e0 with value := newVal, size := newVal.length }
      rw [if_pos hbe]
    have he0d : e0 = d :=
      List.inj_on_of_nodup_map hnd he0 hdm (by rw [eq_of_beq hbe, hdn])
    rw [hfe2]
    show phiVal isDim L rk newVal < (L + 1) ^ rk e0.name
    rw [he0d]
    exact Nat.lt_of_le_of_lt hle (hinv d hdm)
  | false =>
    have hfe2 : e = e0 := by
      rw [← hfe]
      show (if (e0.name == n) = true
        then ({ e0 with value := newVal, size := newVal.length } : DimRec) else e0) = e0
      rw [hbe]
      rw [if_neg (fun hc => Bool.false_ne_true hc)]
    rw [hfe2]
    exact hinv e0 he0

theorem hsz_updateDim {reg : List DimRec} (n : String) (newVal : List String)
    (hsz : ∀ e ∈ reg, e.size = e.value.length) :
    ∀ e ∈ updateDim reg n newVal, e.size = e.value.length := by
  intro e he
  rw [updateDim] at he
  obtain ⟨e0, he0, hfe⟩ := List.mem_map.mp he
  cases hbe : (e0.name == n) with
  | true =>
    have hfe2 : e = { e0 with value := newVal, size := newVal.length } := by
      rw [← hfe]
      show (if (e0.name == n) = true
        then ({ e0 with value := newVal, size := newVal.length } : DimRec) else e0)
        = { e0 with value := newVal, size := newVal.length }
      rw [if_pos hbe]
    rw [hfe2]
  | false =>
    have hfe2 : e = e0 := by
      rw [← hfe]
      show (if (e0.name == n) = true
        then ({ e0 with value := newVal, size := newVal.length } : DimRec) else e0) = e0
      rw [hbe]
      rw [if_neg (fun hc => Bool.false_ne_true hc)]
    rw [hfe2]
    exact hsz e0 he0

theorem onePass_props (isDim : String → Bool) (L : Nat) (rk : String → Nat) :
    ∀ (ns : List String) (reg : List DimRec) (ch : Bool),
    (reg.map (·.name)).Nodup →
    (∀ s, isDim s = isDimName reg s) →
    (∀ d ∈ reg, phiVal isDim L rk d.value < (L + 1) ^ rk d.name) →
    (∀ d ∈ reg, d.size = d.value.length) →
    ((onePass ns reg ch).1.map (·.name) = reg.map (·.name)) ∧
    (∀ d ∈ (onePass ns reg ch).1, phiVal isDim L rk d.value < (L + 1) ^ rk d.name) ∧
    (∀ d ∈ (onePass ns reg ch).1, d.size = d.value.length) ∧
    phiReg isDim L rk (onePass ns reg ch).1 ≤ phiReg isDim L rk reg ∧
    ((onePass ns reg ch).2 = false → ch = false ∧ (onePass ns reg ch).1 = reg) ∧
    (ch = false → (onePass ns reg ch).2 = true →
      phiReg isDim L rk (onePass ns reg ch).1 < phiReg isDim L rk reg) ∧
    ((onePass ns reg ch).2 = false → ∀ n ∈ ns, ∀ d, lookupDim reg n = some d →
      expandValue reg d.value = d.value) := by
  intro ns
  induction ns with
  | nil =>
    intro reg ch hnd hdim hinv hsz
    refine ⟨rfl, hinv, hsz, Nat.le_refl _, fun h => ⟨h, rfl⟩, ?_, ?_⟩
    · intro h1 h2
      have h2e : ch = true := h2
      rw [h1] at h2e
      exact absurd h2e Bool.false_ne_true
    · intro _ n2 hn2
      exact absurd hn2 (List.not_mem_nil n2)
  | cons n ns ih =>
    intro reg ch hnd hdim hinv hsz
    cases hls : lookupDim reg n with
    | none =>
      have hstep : onePass (n :: ns) reg ch = onePass ns reg ch := by
        simp only [onePass, hls]
      rw [hstep]
      obtain ⟨ha, hb, hc, hd, he, hf, hg⟩ := ih reg ch hnd hdim hinv hsz
      refine ⟨ha, hb, hc, hd, he, hf, ?_⟩
      intro hch n2 hn2 e hle
      rcases List.mem_cons.mp hn2 with h1 | h1
      · rw [h1, hls] at hle
        exact Option.noConfusion hle
      · exact hg hch n2 h1 e hle
    | some d =>
      by_cases heq : expandValue reg d.value = d.value
      · have hstep : onePass (n :: ns) reg ch = onePass ns reg ch := by
          simp only [onePass, hls, if_pos heq]
        rw [hstep]
        obtain ⟨ha, hb, hc, hd2, he, hf, hg⟩ := ih reg ch hnd hdim hinv hsz
        refine ⟨ha, hb, hc, hd2, he, hf, ?_⟩
        intro hch n2 hn2 e hle
        rcases List.mem_cons.mp hn2 with h1 | h1
        · rw [h1, hls] at hle
          rw [← Option.some.inj hle]
          exact heq
        · exact hg hch n2 h1 e hle
      · have hstep : onePass (n :: ns) reg ch
            = onePass ns (updateDim reg n (expandValue reg d.value)) true := by
          simp only [onePass, hls, if_neg heq]
        rw [hstep]
        have hnames2 : (updateDim reg n (expandValue reg d.value)).map (·.name)
            = reg.map (·.name) := updateDim_names reg n _
        have hnd2 : ((updateDim reg n (expandValue reg d.value)).map (·.name)).Nodup := by
          rw [hnames2]
          exact hnd
        have hdim2 : ∀ s, isDim s = isDimName (updateDim reg n (expandValue reg d.value)) s := by
          intro s
          rw [hdim s]
          exact isDimName_congr_names hnames2.symm s
        have hle : phiVal isDim L rk (expandValue reg d.value) ≤ phiVal isDim L rk d.value :=
          phiVal_expand_le reg isDim L rk hdim hinv d.value
        have hinv2 := hinv_updateDim isDim L rk hnd hls hinv hle
        have hsz2 := hsz_updateDim n (expandValue reg d.value) hsz
        have hexs : ∃ s ∈ d.value, isDimName reg s = true := by
          by_contra hc
          apply heq
          apply expandValue_id_of_none
          intro s hs
          cases hlk : lookupDim reg s with
          | none => rfl
          | some e =>
            exact absurd ⟨s, hs, by unfold isDimName; rw [hlk]; rfl⟩ hc
        have hlt : phiVal isDim L rk (expandValue reg d.value) < phiVal isDim L rk d.value :=
          phiVal_expand_lt reg isDim L rk hdim hinv hexs
        have hphi := phiReg_updateDim isDim L rk (expandValue reg d.value) hnd hls
        have hdec : phiReg isDim L rk (updateDim reg n (expandValue reg d.value))
            < phiReg isDim L rk reg := by omega
        obtain ⟨ha, hb, hc, hd2, he, hf, hg⟩ :=
          ih (updateDim reg n (expandValue reg d.value)) true hnd2 hdim2 hinv2 hsz2
        refine ⟨?_, hb, hc, ?_, ?_, ?_, ?_⟩
        · rw [ha, hnames2]
        · exact Nat.le_trans hd2 (Nat.le_of_lt hdec)
        · intro hch
          exact absurd (he hch).1 (fun hcc => Bool.false_ne_true hcc.symm)
        · intro _ _
          exact Nat.lt_of_le_of_lt hd2 hdec
        · intro hch
          exact absurd (he hch).1 (fun hcc => Bool.false_ne_true hcc.symm)

theorem expandLoop_terminates (isDim : String → Bool) (L : Nat) (rk : String → Nat) :
    ∀ (fuel : Nat) (reg : List DimRec),
    phiReg isDim L rk reg < fuel →
    (reg.map (·.name)).Nodup →
    (∀ s, isDim s = isDimName reg s) →
    (∀ d ∈ reg, phiVal isDim L rk d.value < (L + 1) ^ rk d.name) →
    (∀ d ∈ reg, d.size = d.value.length) →
    ∃ out, expandLoop fuel reg = some out ∧
      out.map (·.name) = reg.map (·.name) ∧
      (∀ d ∈ out, (∀ s ∈ d.value, isDimName out s = false) ∧ d.size = d.value.length) := by
  intro fuel
  induction fuel with
  | zero =>
    intro reg hfuel
    exact absurd hfuel (Nat.not_lt_zero _)
  | succ f ihf =>
    intro reg hfuel hnd hdim hinv hsz
    obtain ⟨ha, hb, hc, hd, he, hf2, hg⟩ :=
      onePass_props isDim L rk (reg.map (·.name)) reg false hnd hdim hinv hsz
    have hstep : expandLoop (f + 1) reg
        = if (onePass (reg.map (·.name)) reg false).2 = true then
            expandLoop f (onePass (reg.map (·.name)) reg false).1
          else some (onePass (reg.map (·.name)) reg false).1 := rfl
    cases hflag : (onePass (reg.map (·.name)) reg false).2 with
    | true =>
      have hphi_lt : phiReg isDim L rk (onePass (reg.map (·.name)) reg false).1 < f :=
        Nat.lt_of_lt_of_le (hf2 rfl hflag) (Nat.lt_succ_iff.mp hfuel)
      have hnd2 : ((onePass (reg.map (·.name)) reg false).1.map (·.name)).Nodup := by
        rw [ha]
        exact hnd
      have hdim2 : ∀ s, isDim s = isDimName (onePass (reg.map (·.name)) reg false).1 s :=
        fun s => (hdim s).trans (isDimName_congr_names ha.symm s)
      obtain ⟨out, hout, hnames, hprops⟩ :=
        ihf (onePass (reg.map (·.name)) reg false).1 hphi_lt hnd2 hdim2 hb hc
      refine ⟨out, ?_, hnames.trans ha, hprops⟩
      rw [hstep, hflag, if_pos rfl]
      exact hout
    | false =>
      obtain ⟨-, hreg⟩ := he hflag
      refine ⟨reg, ?_, rfl, ?_⟩
      · rw [hstep, hflag]
        rw [if_neg (fun hc2 => Bool.false_ne_true hc2), hreg]
      · intro d hdmem
        have hdn : d.name ∈ reg.map (·.name) := List.mem_map.mpr ⟨d, hdmem, rfl⟩
        have hld : lookupDim reg d.name = some d := lookupDim_self hnd hdmem
        have hfix := hg hflag d.name hdn d hld
        exact ⟨nodim_of_fixpoint reg isDim L rk hdim hinv hfix, hsz d hdmem⟩

/-- Claim C6 (amended): on acyclic input — witnessed by a rank function
`rk` that decreases from each dimension's name to every dimension name in
its value — the dimension-expansion loop of `readSubscriptRanges`
terminates (fuel one more than the potential suffices), leaving every
dimension's value free of dimension names and its size equal to its
value's length; no `CyclicDimension` failure exists in the code (see the
counterexample for the cyclic case). -/
theorem claim_C6 (reg : List DimRec) (L : Nat) (rk : String → Nat)
    (hnd : (reg.map (·.name)).Nodup)
    (hrk : ∀ d ∈ reg, ∀ s ∈ d.value, isDimName reg s = true → rk s < rk d.name)
    (hL : ∀ d ∈ reg, d.value.length ≤ L)
    (hsz : ∀ d ∈ reg, d.size = d.value.length) :
    ∃ out, expandLoop (phiReg (isDimName reg) L rk reg + 1) reg = some out ∧
      out.map (·.name) = reg.map (·.name) ∧
      ∀ d ∈ out, (∀ s ∈ d.value, isDimName out s = false) ∧ d.size = d.value.length := by
  have hinv : ∀ d ∈ reg, phiVal (isDimName reg) L rk d.value < (L + 1) ^ rk d.name :=
    fun d hd => phiVal_lt_pow (isDimName reg) L rk (hL d hd) (fun s hs hds => hrk d hd s hs hds)
  exact expandLoop_terminates (isDimName reg) L rk _ reg (Nat.lt_succ_self _) hnd
    (fun s => rfl) hinv hsz

/-- Witness for claim C6 at the concrete acyclic registry `regW6`. -/
theorem claim_C6_witness :
    ∃ out, expandLoop (phiReg (isDimName regW6) 2 rkW6 regW6 + 1) regW6 = some out ∧
      out.map (·.name) = regW6.map (·.name) ∧
      ∀ d ∈ out, (∀ s ∈ d.value, isDimName out s = false) ∧ d.size = d.value.length :=
  claim_C6 regW6 2 rkW6 (by decide) (by decide) (by decide) (by decide)

/-- Claim C9, counterexample: invoking the pipeline with a spec file
whose contents are not parseable JSON does not produce an error exit —
`parseJsonFile`'s catch-all swallows the `JSON.parse` exception silently
(no diagnostic is written) and spec loading completes normally with the
empty spec object. -/
theorem claim_C9_counterexample :
    specLoadOutcome (some "not json") (fun _ => none) (fun s => s)
      = Except.ok { dimensionFamilies := none } := by
  rfl

/-- Claim C9 (amended): whenever the spec file's contents fail to parse
as JSON (and likewise when the file cannot be read at all), the pipeline
continues with the empty spec object `{}`; it neither exits non-zero nor
writes a diagnostic for this condition. -/
theorem claim_C9 (contents : Option String) (jsonParse : String → Option Spec)
    (canonical : String → String)
    (hbad : ∀ s, contents = some s → jsonParse s = none) :
    specLoadOutcome contents jsonParse canonical
      = Except.ok { dimensionFamilies := none } := by
  unfold specLoadOutcome parseSpec parseJsonFile
  cases hc : contents with
  | none => rfl
  | some s =>
    simp only [hbad s hc]

/-- Witness for claim C9 at a concrete unparseable input. -/
theorem claim_C9_witness :
    specLoadOutcome (some "x") (fun _ => none) (fun s => s)
      = Except.ok { dimensionFamilies := none } :=
  claim_C9 (some "x") (fun _ => none) (fun s => s) (fun _ _ => rfl)

/-- Claim C7, counterexample: a mapping entry naming an unknown map-to
subscript does not raise `MappingError` — it crashes the inversion with
an ordinary JavaScript exception.  With the undeclared name "tx",
`sub('tx')` is `undefined` and `toSub.name` throws a TypeError; with the
declared index "x1" that belongs to no position of `toDim`, `indexOf`
misses and the invalid branch of `setMappingValue` throws a
ReferenceError at its `console.error` template (whose `toSubName` is out
of scope), so not even the diagnostic is written. -/
theorem claim_C7_counterexample :
    invertOne reg7 inds7 from7 to7 ["t1", "tx"]
      = Except.error (InvErr.typeErrorUndefinedSub "tx") ∧
    invertOne reg7 inds7x from7 to7 ["t1", "x1"]
      = Except.error InvErr.referenceErrorToSubName :=
  ⟨rfl, rfl⟩

theorem setPure_length (size : Nat) (st : List (Option String)) (c : Option Nat × String) :
    (setPure size st c).length = st.length := by
  cases hc : c.1 with
  | none => simp only [setPure, hc]
  | some i =>
    simp only [setPure, hc]
    by_cases hi : i < size
    · rw [if_pos hi]
      exact List.length_set st i _
    · rw [if_neg hi]

theorem foldl_setPure_length (size : Nat) :
    ∀ (cs : List (Option Nat × String)) (st : List (Option String)),
      (cs.foldl (setPure size) st).length = st.length := by
  intro cs
  induction cs with
  | nil => intro st; rfl
  | cons c rest ih =>
    intro st
    rw [List.foldl_cons, ih, setPure_length]

theorem foldl_setPure_get (size : Nat) :
    ∀ (cs : List (Option Nat × String)) (st : List (Option String)) (k : Nat) (f : String),
      st[k]? = some (some f) →
      (∀ c ∈ cs, c.1 = some k → c.2 = f) →
      (cs.foldl (setPure size) st)[k]? = some (some f) := by
  intro cs
  induction cs with
  | nil => intro st k f h _; exact h
  | cons c rest ih =>
    intro st k f h hfun
    rw [List.foldl_cons]
    refine ih _ k f ?_ (fun c2 hc2 => hfun c2 (List.mem_cons_of_mem _ hc2))
    cases hc : c.1 with
    | none => simp only [setPure, hc]; exact h
    | some i =>
      simp only [setPure, hc]
      by_cases hi : i < size
      · rw [if_pos hi]
        by_cases hik : i = k
        · have hf : c.2 = f := hfun c (List.mem_cons_self _ _) (by rw [hc, hik])
          rw [hik] at *
          have hklen : k < st.length := by
            cases hlt : Nat.decLt k st.length with
            | isTrue hp => exact hp
            | isFalse hp =>
              rw [List.getElem?_eq_none (Nat.le_of_not_lt hp)] at h
              exact Option.noConfusion h
          rw [List.getElem?_set_eq_of_lt _ hklen, hf]
        · rw [List.getElem?_set_ne hik]
          exact h
      · rw [if_neg hi]
        exact h

theorem foldl_setPure_assigned (size : Nat) :
    ∀ (cs : List (Option Nat × String)) (st : List (Option String))
      (c : Option Nat × String) (k : Nat),
      c ∈ cs → c.1 = some k → k < size → st.length = size →
      (∀ c2 ∈ cs, c2.1 = some k → c2.2 = c.2) →
      (cs.foldl (setPure size) st)[k]? = some (some c.2) := by
  intro cs
  induction cs with
  | nil =>
    intro st c k hmem
    exact absurd hmem (List.not_mem_nil c)
  | cons c2 rest ih =>
    intro st c k hmem hck hk hlen hfun
    rw [List.foldl_cons]
    rcases List.mem_cons.mp hmem with hc | hc
    · refine foldl_setPure_get size rest _ k c.2 ?_
        (fun c3 hc3 => hfun c3 (List.mem_cons_of_mem _ hc3))
      rw [← hc]
      simp only [setPure, hck]
      rw [if_pos hk]
      rw [List.getElem?_set_eq_of_lt _ (by rw [hlen]; exact hk)]
    · refine ih _ c k hc hck hk ?_
        (fun c3 hc3 => hfun c3 (List.mem_cons_of_mem _ hc3))
      rw [setPure_length]
      exact hlen

theorem runCalls_ok (size : Nat) :
    ∀ (cs : List (Option Nat × String)) (st : List (Option String)),
      (∀ c ∈ cs, c.1 ≠ none ∧ c.1.getD 0 < size) →
      runCalls size cs st = Except.ok (cs.foldl (setPure size) st) := by
  intro cs
  induction cs with
  | nil => intro st _; rfl
  | cons c rest ih =>
    intro st hv
    obtain ⟨h1, h2⟩ := hv c (List.mem_cons_self _ _)
    cases hc : c.1 with
    | none => exact absurd hc h1
    | some i =>
      have hi : i < size := by
        rw [hc] at h2
        exact h2
      have hset : setMV size st c = Except.ok (st.set i (some c.2)) := by
        simp only [setMV, hc]
        rw [if_pos hi]
      have hfold : (c :: rest).foldl (setPure size) st
          = rest.foldl (setPure size) (st.set i (some c.2)) := by
        rw [List.foldl_cons]
        have hstep : setPure size st c = st.set i (some c.2) := by
          simp only [setPure, hc]
          rw [if_pos hi]
        rw [hstep]
      rw [hfold]
      show (match setMV size st c with
        | Except.ok st2 => runCalls size rest st2
        | Except.error e => Except.error e)
        = Except.ok (rest.foldl (setPure size) (st.set i (some c.2)))
      rw [hset]
      exact ih _ (fun c2 hc2 => hv c2 (List.mem_cons_of_mem _ hc2))

theorem invertEntries_ok (reg : List DimRec) (inds : List String) (toDim : DimRec) :
    ∀ (ps : List (String × String)) (st : List (Option String)),
      (∀ p ∈ ps, (lookupDim reg p.2).isSome = true ∨ inds.contains p.2 = true) →
      (∀ c ∈ ps.flatMap (entryCalls reg toDim), c.1 ≠ none ∧ c.1.getD 0 < toDim.size) →
      invertEntries reg inds toDim ps st
        = Except.ok ((ps.flatMap (entryCalls reg toDim)).foldl (setPure toDim.size) st) := by
  intro ps
  induction ps with
  | nil => intro st _ _; rfl
  | cons p rest ih =>
    intro st hres hv
    have hvp : ∀ c ∈ entryCalls reg toDim p, c.1 ≠ none ∧ c.1.getD 0 < toDim.size :=
      fun c hc => hv c (by rw [List.flatMap_cons]; exact List.mem_append_left _ hc)
    have hvrest : ∀ c ∈ rest.flatMap (entryCalls reg toDim),
        c.1 ≠ none ∧ c.1.getD 0 < toDim.size :=
      fun c hc => hv c (by rw [List.flatMap_cons]; exact List.mem_append_right _ hc)
    have hres2 : ∀ p2 ∈ rest, (lookupDim reg p2.2).isSome = true ∨ inds.contains p2.2 = true :=
      fun p2 hp2 => hres p2 (List.mem_cons_of_mem _ hp2)
    have hfold : ((p :: rest).flatMap (entryCalls reg toDim)).foldl (setPure toDim.size) st
        = (rest.flatMap (entryCalls reg toDim)).foldl (setPure toDim.size)
            ((entryCalls reg toDim p).foldl (setPure toDim.size) st) := by
      rw [List.flatMap_cons, List.foldl_append]
    rw [hfold]
    cases hlk : lookupDim reg p.2 with
    | some toSub =>
      have hcalls : entryCalls reg toDim p
          = toSub.value.map (fun t => (toDim.value.findIdx? (fun x => x == t), p.1)) := by
        simp only [entryCalls, hlk]
      rw [hcalls] at hvp
      simp only [invertEntries, hlk]
      rw [runCalls_ok toDim.size _ st hvp, hcalls]
      exact ih _ hres2 hvrest
    | none =>
      rcases hres p (List.mem_cons_self _ _) with hs | hco
      · rw [hlk] at hs
        exact absurd hs Bool.false_ne_true
      · have hcalls : entryCalls reg toDim p
            = [(toDim.value.findIdx? (fun x => x == p.2), p.1)] := by
          simp only [entryCalls, hlk]
        rw [hcalls] at hvp
        simp only [invertEntries, hlk]
        rw [if_pos hco]
        rw [runCalls_ok toDim.size _ st hvp, hcalls]
        exact ih _ hres2 hvrest

/-- Claim C7 (amended): after mapping inversion for a pair
`(fromDim, toDim)`, an empty declared mapping value stores fromDim's own
index list; a non-empty declared mapping whose map-to names all resolve
(`hres`), whose calls all target in-range toDim positions (`hvalid`) and
target each position with a unique map-from index (`hfun`), and which
covers every position (`hcover`), completes normally and stores, at
every position `k`, exactly the fromDim index that the declaration maps
to the k-th toDim index.  An entry naming an unknown map-to index does
not raise `MappingError`: it crashes the inversion with a TypeError or a
ReferenceError, and no diagnostic is ever written (see the
counterexample). -/
theorem claim_C7 (reg : List DimRec) (inds : List String) (fromDim toDim : DimRec)
    (mv : List String) (hne : mv ≠ [])
    (hres : ∀ p ∈ fromDim.value.zip mv,
      (lookupDim reg p.2).isSome = true ∨ inds.contains p.2 = true)
    (hvalid : ∀ c ∈ mappingCalls reg toDim fromDim.value mv,
      c.1 ≠ none ∧ c.1.getD 0 < toDim.size)
    (hfun : ∀ c ∈ mappingCalls reg toDim fromDim.value mv,
      ∀ c2 ∈ mappingCalls reg toDim fromDim.value mv, c.1 = c2.1 → c.2 = c2.2)
    (hcover : ∀ k, k < toDim.size → ∃ c ∈ mappingCalls reg toDim fromDim.value mv,
      c.1 = some k) :
    invertOne reg inds fromDim toDim [] = Except.ok (fromDim.value.map some) ∧
    ∃ inv, invertOne reg inds fromDim toDim mv = Except.ok inv ∧
      inv.length = toDim.size ∧
      ∀ k, k < toDim.size → ∃ f, inv[k]? = some (some f) ∧
        ∀ c ∈ mappingCalls reg toDim fromDim.value mv, c.1 = some k → c.2 = f := by
  have hmain : invertOne reg inds fromDim toDim mv
      = Except.ok ((mappingCalls reg toDim fromDim.value mv).foldl
          (setPure toDim.size) (List.replicate toDim.size none)) := by
    rw [invertOne, if_neg hne]
    exact invertEntries_ok reg inds toDim _ _ hres hvalid
  refine ⟨by rw [invertOne, if_pos rfl], _, hmain, ?_, ?_⟩
  · rw [foldl_setPure_length]
    exact List.length_replicate _ _
  · intro k hk
    obtain ⟨c, hc, hck⟩ := hcover k hk
    refine ⟨c.2, ?_, ?_⟩
    · exact foldl_setPure_assigned _ _ _ c k hc hck hk (List.length_replicate _ _)
        (fun c2 hc2 h2 => hfun c2 hc2 c hc (by rw [h2, hck]))
    · intro c2 hc2 h2
      exact hfun c2 hc2 c hc (by rw [h2, hck])

/-- Witness for claim C7 at a concrete well-formed two-index mapping. -/
theorem claim_C7_witness :
    invertOne regW7 indsW7 fromW7 to7 [] = Except.ok (fromW7.value.map some) ∧
    ∃ inv, invertOne regW7 indsW7 fromW7 to7 ["t2", "t1"] = Except.ok inv ∧
      inv.length = to7.size ∧
      ∀ k, k < to7.size → ∃ f, inv[k]? = some (some f) ∧
        ∀ c ∈ mappingCalls regW7 to7 fromW7.value ["t2", "t1"], c.1 = some k → c.2 = f :=
  claim_C7 regW7 indsW7 fromW7 to7 ["t2", "t1"] (by decide) (by decide) (by decide)
    (by decide) (by decide)
